import Mathlib

/-!
# Verification of the gn build-generator backend excerpt

A shallow embedding of the path algebra (`filesystem_utils.cc`), the binary
target writer's dependency classification (`ninja_binary_target_writer.cc`)
and the target generator dispatch (`target_generator.cc`), together with
proofs of the specified properties.

Paths are modelled as `List Char`; the in-place rewriting loop of
`NormalizePath` becomes a recursive function that carries the output built so
far (in reversed order, so that the C++ writes/pops at `dest_i` become list
operations at the head), the original input character just before the current
read position (`pathbuf[src_i - 1]`; the C++ loop only ever queries it through
`IsSlash`, for which the already-written copy it actually reads is
equivalent), the current `top_index` and the `is_relative` flag.
-/

set_option maxHeartbeats 1000000

/-- `IsSlash` from the gn sources: forward slash or backslash. -/
def isSlash (c : Char) : Bool := c = '/' ∨ c = '\\'

/-- The test `src_i == 0 || IsSlash(pathbuf[src_i - 1])` guarding the
"slash followed by a dot" case of `NormalizePath`; `none` encodes
`src_i == 0`. -/
def startOrSlash : Option Char → Bool
  | none => true
  | some p => isSlash p

/-- The test `src_i > 0 && IsSlash(pathbuf[src_i - 1])` guarding the
"two slashes in a row" case of `NormalizePath`. -/
def afterSlash : Option Char → Bool
  | none => false
  | some p => isSlash p

/-- `while (dest_i > 0 && !IsSlash(pathbuf[dest_i - 1])) dest_i--;` of
`NormalizePath`, on the reversed output buffer. -/
def popToSlash : List Char → List Char
  | [] => []
  | c :: rest => if isSlash c then c :: rest else popToSlash rest

/-- The `DIRECTORY_UP` branch of `NormalizePath`: back up over the previous
directory component, or preserve/eat a `..` at the top.  Takes the reversed
output, the current `top_index`, `is_relative`, and whether the consumed
length was 3 (`..` followed by a slash); returns the new reversed output and
the new `top_index`. -/
def upState (outRev : List Char) (top : Nat) (isRel : Bool) (hasSlash : Bool) :
    List Char × Nat :=
  -- if (dest_i > top_index) dest_i--;
  let o1 := if top < outRev.length then outRev.tail else outRev
  if o1.length = top then
    if isRel then
      -- copy the ".." and the trailing slash if there was one; the new
      -- output position becomes a "root" (top_index = dest_i)
      let o2 := if hasSlash then '/' :: '.' :: '.' :: o1 else '.' :: '.' :: o1
      (o2, o2.length)
    else
      -- at the beginning of an absolute path: eat the "..".
      (o1, top)
  else
    -- just find the previous slash or the beginning of input
    (popToSlash o1, top)

/-- The main rewriting loop of `NormalizePath` (the `for` over `src_i`), with
an explicit fuel argument to make the recursion structural; every iteration
consumes at least one input character, so fuel equal to the input length (as
supplied by `normLoop` below) always suffices and the out-of-fuel branch is
never taken from `normalizePath`.

`rem` is the input from `src_i` on, `prev` the original input character at
`src_i - 1` (`none` for `src_i == 0`), `outRev` the output written so far in
reversed order, `top` the current `top_index`.  The case analysis of
`ClassifyAfterDot` is inlined into the nested match on `rest` (the input
after the dot): `[]` and slash give `DIRECTORY_CUR` (consumed 1 resp. 2),
dot-then-end and dot-then-slash give `DIRECTORY_UP` (consumed 2 resp. 3),
anything else is `NOT_A_DIRECTORY` (copy the dot literally). -/
def normLoopF : Nat → List Char → Option Char → List Char → Nat → Bool →
    List Char
  | _, [], _, outRev, _, _ => outRev
  | 0, _ :: _, _, outRev, _, _ => outRev
  | fuel + 1, c :: rest, prev, outRev, top, isRel =>
    if c = '.' then
      if startOrSlash prev then
        match rest with
        | [] =>
          -- single dot at the end: DIRECTORY_CUR, skip it, input exhausted
          outRev
        | z :: zs =>
          if isSlash z then
            -- "./": DIRECTORY_CUR with consumed_len = 2
            normLoopF fuel zs (some z) outRev top isRel
          else if z = '.' then
            match zs with
            | [] =>
              -- ".." at the end: DIRECTORY_UP with consumed_len = 2,
              -- input exhausted afterwards
              (upState outRev top isRel false).1
            | w :: ws =>
              if isSlash w then
                -- "../": DIRECTORY_UP with consumed_len = 3
                normLoopF fuel ws (some w) (upState outRev top isRel true).1
                  (upState outRev top isRel true).2 isRel
              else
                -- "..x": NOT_A_DIRECTORY, copy the first dot
                normLoopF fuel rest (some c) (c :: outRev) top isRel
          else
            -- ".x": NOT_A_DIRECTORY, copy the dot
            normLoopF fuel rest (some c) (c :: outRev) top isRel
      else
        -- dot not preceded by a slash, copy it literally
        normLoopF fuel rest (some c) (c :: outRev) top isRel
    else if isSlash c then
      if afterSlash prev then
        -- two slashes in a row, skip
        normLoopF fuel rest (some c) outRev top isRel
      else
        -- one slash: copy it, normalizing to forward slash
        normLoopF fuel rest (some c) ('/' :: outRev) top isRel
    else
      -- nothing special, copy
      normLoopF fuel rest (some c) (c :: outRev) top isRel

/-- The rewriting loop of `NormalizePath` with the fuel instantiated to the
length of the remaining input, which always suffices. -/
def normLoop (rem : List Char) (prev : Option Char) (outRev : List Char)
    (top : Nat) (isRel : Bool) : List Char :=
  normLoopF rem.length rem prev outRev top isRel

/-- `NormalizePath` on a path given as a character list.  The prologue
determines `top_index` and `is_relative` from the leading slashes: `//` is a
source-absolute path (`top_index = 2`), `/` a system-absolute one
(`top_index = 1`), anything else relative (`top_index = 0`). -/
def normalizePath (path : List Char) : List Char :=
  match path with
  | [] => []
  | c :: rest =>
    if c = '/' then
      match rest with
      | [] => ['/']
      | c2 :: rest2 =>
        if c2 = '/' then
          -- two leading slashes: a path into the source dir
          (normLoop rest2 (some '/') ['/', '/'] 2 false).reverse
        else
          -- one leading slash: a system-absolute path
          (normLoop (c2 :: rest2) (some '/') ['/'] 1 false).reverse
    else
      -- no leading slash: a relative path
      (normLoop (c :: rest) none [] 0 true).reverse

/-- `NormalizePath` on a `String`. -/
def normalizePathStr (path : String) : String :=
  ⟨normalizePath path.data⟩

/-- `"../"` repeated `n` times. -/
def upDirs (n : Nat) : List Char := (List.replicate n ['.', '.', '/']).flatten

/-- `InvertDir` from `filesystem_utils.cc`: skip the leading `/` or `//`,
then append one `"../"` for every slash in the remainder. -/
def invertDir (value : List Char) : List Char :=
  if value = [] then []
  else
    let beginIndex := if 1 < value.length ∧ value.getD 1 ' ' = '/' then 2 else 1
    upDirs (((value.drop beginIndex).filter (fun c => isSlash c)).length)

/-- The common-prefix scan of `RebaseSourceAbsolutePath`: starting at index 2
with `common_prefix_len = 2`, advance `common_prefix_len` past every position
where both strings have a slash, and stop at the first differing position. -/
def rebaseScan (input dest : List Char) (maxCommonLength i commonPrefixLen : Nat) :
    Nat :=
  if _h : i < maxCommonLength then
    if isSlash (input.getD i ' ') ∧ isSlash (dest.getD i ' ') then
      rebaseScan input dest maxCommonLength (i + 1) (i + 1)
    else if input.getD i ' ' ≠ dest.getD i ' ' then commonPrefixLen
    else rebaseScan input dest maxCommonLength (i + 1) commonPrefixLen
  else commonPrefixLen
termination_by maxCommonLength - i

/-- `RebaseSourceAbsolutePath` from `filesystem_utils.cc`: skip the common
prefix of input and destination directory, emit one `"../"` per slash of the
remaining destination, append the remaining input, and produce `"."` if the
result would be empty. -/
def rebaseSourceAbsolutePath (input dest : List Char) : List Char :=
  let commonPrefixLen :=
    rebaseScan input dest (min input.length dest.length) 2 2
  let ret :=
    upDirs (((dest.drop commonPrefixLen).filter (fun c => isSlash c)).length)
      ++ input.drop commonPrefixLen
  if ret = [] then ['.'] else ret

/-- `MakeAbsolutePathRelativeIfPossible` (the non-Windows branch): if the
source root is a character-for-character prefix of the path, return `//`
followed by the path after the root with all leading slashes skipped;
`none` models returning `false`. -/
def makeAbsolutePathRelativeIfPossible (source_root path : List Char) :
    Option (List Char) :=
  if source_root.length > path.length then none
  else if path.take source_root.length = source_root then
    some ('/' :: '/' :: (path.drop source_root.length).dropWhile
      (fun c => isSlash c))
  else none

/-- Modelled from the spec: "return either a source-relative path (`//…`) if
the candidate lies beneath the root, or fail" — a path lies beneath the root
when it equals the root or continues it past a path separator. -/
def liesBeneath (root path : List Char) : Bool :=
  path = root ∨ (root ++ ['/']) = path.take (root.length + 1)

/-! ## Canonical path segments and normal forms -/

/-- A canonical path segment: non-empty, free of separators, and neither
`"."` nor `".."`. -/
def isSeg (s : List Char) : Bool :=
  !s.isEmpty && s.all (fun c => !(isSlash c)) && !(s == ['.']) &&
    !(s == ['.', '.'])

/-- Segments each followed by a slash, concatenated (the body of a canonical
directory). -/
def segsJoin (segs : List (List Char)) : List Char :=
  (segs.map (fun s => s ++ ['/'])).flatten

/-- A canonical source-absolute directory built from its segments
(`//a/b/` for segments `[a, b]`). -/
def mkSourceDir (segs : List (List Char)) : List Char :=
  '/' :: '/' :: segsJoin segs

/-- A canonical source-absolute file built from its segments
(`//a/b` for segments `[a, b]`). -/
def mkSourceFile (segs : List (List Char)) : List Char :=
  '/' :: '/' :: List.intercalate ['/'] segs

/-- Well-formed body data: a list of canonical segments plus an optional
final segment carrying no trailing slash. -/
def BodyOk (segs : List (List Char)) (tl : Option (List Char)) : Prop :=
  (∀ s ∈ segs, isSeg s = true) ∧ ∀ s, tl = some s → isSeg s = true

/-- The characters of a body: slash-terminated segments followed by the
optional final segment. -/
def bodyStr (segs : List (List Char)) (tl : Option (List Char)) : List Char :=
  segsJoin segs ++ tl.getD []

/-- Normal forms of `NormalizePath`: a system-absolute path `/B`, a
source-absolute path `//B`, a relative path `../ × j ++ B`, or a pure
up-reference `../ × j ++ ".."`, where `B` is a body of canonical segments. -/
def NF (q : List Char) : Prop :=
  (∃ segs tl, BodyOk segs tl ∧ q = '/' :: bodyStr segs tl) ∨
  (∃ segs tl, BodyOk segs tl ∧ q = '/' :: '/' :: bodyStr segs tl) ∨
  (∃ j segs tl, BodyOk segs tl ∧ q = upDirs j ++ bodyStr segs tl) ∨
  (∃ j, q = upDirs j ++ ['.', '.'])

/-- The shape of the protected prefix of the rewrite buffer during
`NormalizePath`: for an absolute path the anchor `/` or `//` with the
matching `top_index`; for a relative path an accumulated run of `../`
protected by `top_index`, or a single `/` produced by a leading backslash
(which the prologue did not recognise as an anchor, leaving
`top_index = 0`). -/
def AnchorOk (A : List Char) (top : Nat) (isRel : Bool) : Prop :=
  if isRel then
    (∃ j, A = upDirs j ∧ top = A.length) ∨ (A = ['/'] ∧ top = 0)
  else (A = ['/'] ∧ top = 1) ∨ (A = ['/', '/'] ∧ top = 2)

/-- Look-ahead guarantees while the partial segment is transiently `"."` or
`".."`: the `NOT_A_DIRECTORY` classification that wrote those dots promises
that the next input character is not a separator (and for `"."` followed by
another dot, the one after that as well). -/
def TransOk (part rem : List Char) : Prop :=
  (part = ['.'] → ∃ z zs, rem = z :: zs ∧ isSlash z = false ∧
    (z = '.' → ∃ w ws, zs = w :: ws ∧ isSlash w = false)) ∧
  (part = ['.', '.'] → ∃ w ws, rem = w :: ws ∧ isSlash w = false)

/-! ## Platform extension table -/

/-- `Settings::TargetOS` (the values exercised by the excerpt). -/
inductive TargetOS where
  | mac
  | win
  | linux
deriving DecidableEq

/-- `Target::OutputType`. -/
inductive OutputType where
  | unknown
  | group
  | executable
  | sharedLibrary
  | staticLibrary
  | sourceSet
  | copyFiles
  | custom
deriving DecidableEq

/-- `GetExtensionForOutputType` from `filesystem_utils.cc`; the `NOTREACHED`
default branches fall through to the final `return ""`. -/
def getExtensionForOutputType (type : OutputType) (os : TargetOS) :
    List Char :=
  match os with
  | .mac =>
    match type with
    | .executable => "".data
    | .sharedLibrary => "dylib".data
    | .staticLibrary => "a".data
    | _ => "".data
  | .win =>
    match type with
    | .executable => "exe".data
    | .sharedLibrary => "dll.lib".data
    | .staticLibrary => "lib".data
    | _ => "".data
  | .linux =>
    match type with
    | .executable => "".data
    | .sharedLibrary => "so".data
    | .staticLibrary => "a".data
    | _ => "".data

/-! ## Source file types -/

/-- `SourceFileType` from the gn sources. -/
inductive SourceFileType where
  | sourceUnknown
  | sourceC
  | sourceCC
  | sourceH
  | sourceM
  | sourceMM
  | sourceS
  | sourceRC
deriving DecidableEq

/-- `FindExtension`: the characters after the last `.` that occurs after the
last separator; empty when there is none (`FindExtensionOffset` scans from
the end, stopping at a slash). -/
def findExtension (path : List Char) : List Char :=
  go path.reverse []
where
  go : List Char → List Char → List Char
    | [], _ => []
    | c :: rest, acc =>
      if isSlash c then [] else if c = '.' then acc else go rest (c :: acc)

/-- `GetSourceFileType` from `filesystem_utils.cc`: classify by extension,
with the Objective-C kinds only on macOS, `.rc` only on Windows and `.S`
only on non-Windows. -/
def getSourceFileType (file : List Char) (os : TargetOS) : SourceFileType :=
  let extension := findExtension file
  if extension = "cc".data ∨ extension = "cpp".data ∨ extension = "cxx".data
    then .sourceCC
  else if extension = "h".data then .sourceH
  else if extension = "c".data then .sourceC
  else if os = .mac ∧ extension = "m".data then .sourceM
  else if os = .mac ∧ extension = "mm".data then .sourceMM
  else if os = .win ∧ extension = "rc".data then .sourceRC
  else if os ≠ .win ∧ extension = "S".data then .sourceS
  else .sourceUnknown

/-! ## Target model and dependency classification -/

/-- The slice of `Target` that the binary target writer consumes.
Dependencies are target identifiers resolved through an environment
(standing in for the C++ pointers); `inherited_libraries` is the iteration
order of the resolved `std::set`. -/
structure GnTarget where
  output_type : OutputType
  sources : List (List Char)
  os : TargetOS
  deps : List Nat
  datadeps : List Nat
  inherited_libraries : List Nat
  data : List (List Char)

/-- Modelled from the spec: `Target::IsLinkable` (its translation unit is
not part of the excerpt).  §4.6 of the spec fixes the classification
"the dep is linkable (executable-no, shared-library-yes, static-library-yes,
source-set-no)". -/
def isLinkable (t : GnTarget) : Bool :=
  t.output_type = .staticLibrary ∨ t.output_type = .sharedLibrary

/-- The three buckets accumulated by `GetDeps` / `ClassifyDependency`.
Extra object files model the `std::set<OutputFile>` as an
insertion-deduplicated list. -/
structure DepBuckets where
  extra_object_files : List (List Char)
  linkable_deps : List Nat
  non_linkable_deps : List Nat
deriving DecidableEq

/-- `std::set<OutputFile>::insert`: add unless already present. -/
def insertOutputFile (s : List (List Char)) (x : List Char) :
    List (List Char) :=
  if x ∈ s then s else s ++ [x]

/-- The inner loop of the source-set branch of `ClassifyDependency`: insert
an object file for every source of the dep whose type is known and not a
header.  `objf` abstracts `NinjaHelper::GetOutputFileForSource`, whose
translation unit is not part of the excerpt. -/
def addSourceSetObjectFiles (objf : Nat → List Char → SourceFileType → List Char)
    (depId : Nat) (dep : GnTarget) (acc : List (List Char)) :
    List (List Char) :=
  dep.sources.foldl
    (fun acc src =>
      let input_file_type := getSourceFileType src dep.os
      if input_file_type ≠ .sourceUnknown ∧ input_file_type ≠ .sourceH then
        insertOutputFile acc (objf depId src input_file_type)
      else acc)
    acc

/-- `NinjaBinaryTargetWriter::ClassifyDependency`:  source-set deps of a
source-set target are non-linkable; source-set deps of other targets have
their object files copied; otherwise the dep is linkable exactly when the
current target links (executable or shared library) and the dep is
linkable; everything else is non-linkable. -/
def classifyDependency (objf : Nat → List Char → SourceFileType → List Char)
    (env : Nat → GnTarget) (current : GnTarget) (depId : Nat)
    (b : DepBuckets) : DepBuckets :=
  let dep := env depId
  let can_link_libs : Bool :=
    current.output_type = .executable ∨ current.output_type = .sharedLibrary
  if dep.output_type = .sourceSet then
    if current.output_type = .sourceSet then
      { b with non_linkable_deps := b.non_linkable_deps ++ [depId] }
    else
      { b with extra_object_files :=
          addSourceSetObjectFiles objf depId dep b.extra_object_files }
  else if can_link_libs ∧ isLinkable dep then
    { b with linkable_deps := b.linkable_deps ++ [depId] }
  else
    { b with non_linkable_deps := b.non_linkable_deps ++ [depId] }

/-- `NinjaBinaryTargetWriter::GetDeps`: classify the normal deps (skipping
those also present among the inherited libraries), then the inherited
libraries, then append every data dep as non-linkable. -/
def getDeps (objf : Nat → List Char → SourceFileType → List Char)
    (env : Nat → GnTarget) (t : GnTarget) : DepBuckets :=
  let b0 : DepBuckets := ⟨[], [], []⟩
  let b1 := t.deps.foldl
    (fun b d =>
      if d ∈ t.inherited_libraries then b
      else classifyDependency objf env t d b)
    b0
  let b2 := t.inherited_libraries.foldl
    (fun b d => classifyDependency objf env t d b) b1
  { b2 with non_linkable_deps := b2.non_linkable_deps ++ t.datadeps }

/-- The classification outcome of a single dependency, as a function of the
two output types only (formalizing §4.6 item 4 of the spec). -/
inductive DepClass where
  | linkable
  | nonLinkable
  | sourceSetExpanded
deriving DecidableEq

/-- Which bucket `ClassifyDependency` sends a dep to. -/
def classification (current dep : GnTarget) : DepClass :=
  if dep.output_type = .sourceSet then
    if current.output_type = .sourceSet then .nonLinkable
    else .sourceSetExpanded
  else if (current.output_type = .executable ∨
      current.output_type = .sharedLibrary : Bool) ∧ isLinkable dep then
    .linkable
  else .nonLinkable

/-- The deduplicated sequence of dependencies `GetDeps` classifies: the
normal deps that are not also inherited, followed by the inherited
libraries. -/
def processedDeps (t : GnTarget) : List Nat :=
  t.deps.filter (fun d => !(d ∈ t.inherited_libraries : Bool)) ++
    t.inherited_libraries

/-- `NinjaBinaryTargetWriter::WriteImplicitDependencies`: when there are
non-linkable deps or data files, the implicit-dependency tail lists every
non-linkable dep's output file and then every data file.  `outTF` abstracts
`NinjaHelper::GetTargetOutputFile`. -/
def writeImplicitDependencies (outTF : Nat → List Char) (t : GnTarget)
    (non_linkable_deps : List Nat) : List (List Char) :=
  if non_linkable_deps ≠ [] ∨ t.data ≠ [] then
    non_linkable_deps.map outTF ++ t.data
  else []

/-- The dependency portion of the build line emitted by
`NinjaBinaryTargetWriter::WriteSourceSetStamp`: the target's own object
files followed by the implicit-dependency tail. -/
def writeSourceSetStamp (objf : Nat → List Char → SourceFileType → List Char)
    (outTF : Nat → List Char) (env : Nat → GnTarget) (t : GnTarget)
    (object_files : List (List Char)) : List (List Char) :=
  let b := getDeps objf env t
  object_files ++ writeImplicitDependencies outTF t b.non_linkable_deps

/-! ## Target generator dispatch -/

/-- `Value::Type` discrimination for the argument check of
`TargetGenerator::GenerateTarget`. -/
inductive GnValue where
  | string (s : List Char)
  | integer (n : Int)
  | boolean (b : Bool)
  | list (n : Nat)
deriving DecidableEq

/-- A located error (`Err`): the location is the identifier of the node the
error was constructed from. -/
structure GnErr where
  location : Nat
  message : String
deriving DecidableEq

/-- The observable outcome of `TargetGenerator::GenerateTarget`: the error
slot and how many times the target was handed to
`BuildSettings::ItemDefined`. -/
structure GenResult where
  err : Option GnErr
  itemDefined : Nat
deriving DecidableEq

/-- Modelled from the spec: the seven known output kinds of the dispatch
(§4.4; the `functions::k…` string constants live outside the excerpt). -/
def knownOutputKind (output_type : List Char) : Option OutputType :=
  if output_type = "copy".data then some .copyFiles
  else if output_type = "custom".data then some .custom
  else if output_type = "executable".data then some .executable
  else if output_type = "group".data then some .group
  else if output_type = "shared_library".data then some .sharedLibrary
  else if output_type = "source_set".data then some .sourceSet
  else if output_type = "static_library".data then some .staticLibrary
  else none

/-- `TargetGenerator::GenerateTarget`: reject anything but exactly one
string argument with a located error; dispatch on the output kind, rejecting
unknown kinds with a located error; run the kind-specific generator
(abstracted by `runGen`, which reports its error if any); and hand the
target to the build-settings sink exactly when no error was set. -/
def generateTarget (functionCall : Nat) (args : List GnValue)
    (output_type : List Char) (runGen : OutputType → Option GnErr) :
    GenResult :=
  match args with
  | [GnValue.string _name] =>
    let genErr : Option GnErr :=
      match knownOutputKind output_type with
      | some kind => runGen kind
      | none =>
        some { location := functionCall, message := "Not a known output type" }
    match genErr with
    | some e => { err := some e, itemDefined := 0 }
    | none => { err := none, itemDefined := 1 }
  | _ =>
    let e : GnErr :=
      { location := functionCall,
        message := "Target generator requires one string argument." }
    { err := some e, itemDefined := 0 }

/-! ## Concrete sample data for evaluating the embedded functions -/

/-- A sample object-file naming function: prefix the source with `o`. -/
def sampleObjf : Nat → List Char → SourceFileType → List Char :=
  fun _ src _ => 'o' :: src

/-- A sample target-output-file naming function. -/
def sampleOutTF : Nat → List Char :=
  fun d => ['s', Char.ofNat (48 + d % 10)]

/-- A static library target. -/
def sampleLib : GnTarget :=
  { output_type := OutputType.staticLibrary, sources := [],
    os := TargetOS.linux, deps := [], datadeps := [],
    inherited_libraries := [], data := [] }

/-- A source-set target with one compilable source and one header. -/
def sampleSS : GnTarget :=
  { output_type := OutputType.sourceSet,
    sources := [['a', '.', 'c', 'c'], ['b', '.', 'h']],
    os := TargetOS.linux, deps := [], datadeps := [],
    inherited_libraries := [], data := [] }

/-- Dependency environment: dep 0 is the static library, every other id is
the source set. -/
def sampleEnv : Nat → GnTarget :=
  fun d => if d = 0 then sampleLib else sampleSS

/-- An executable depending on the library and the source set, with a data
dependency on target 2. -/
def sampleExe : GnTarget :=
  { output_type := OutputType.executable, sources := [],
    os := TargetOS.linux, deps := [0, 1], datadeps := [2],
    inherited_libraries := [], data := [] }

/-- A source set depending on the library and the other source set, with one
data file. -/
def sampleSS2 : GnTarget :=
  { output_type := OutputType.sourceSet, sources := [],
    os := TargetOS.linux, deps := [0, 1], datadeps := [],
    inherited_libraries := [], data := [['d', '.', 't', 'x', 't']] }

/-! ## Basic facts about the rewriting loop -/

theorem isSlash_dot : isSlash '.' = false := by decide

theorem isSlash_fwd : isSlash '/' = true := by decide

theorem ne_dot_of_isSlash {c : Char} (h : isSlash c = true) : c ≠ '.' := by
  intro hc; subst hc; simp [isSlash_dot] at h

theorem normLoopF_irrel (f1 : Nat) : ∀ (f2 : Nat) (rem : List Char)
    (prev : Option Char) (outRev : List Char) (top : Nat) (isRel : Bool),
    rem.length ≤ f1 → rem.length ≤ f2 →
    normLoopF f1 rem prev outRev top isRel =
      normLoopF f2 rem prev outRev top isRel := by
  induction f1 with
  | zero =>
    intro f2 rem prev outRev top isRel h1 _
    have hrem : rem = [] := List.length_eq_zero.mp (Nat.le_zero.mp h1)
    subst hrem
    cases f2 <;> rfl
  | succ f ih =>
    intro f2 rem prev outRev top isRel h1 h2
    cases rem with
    | nil => cases f2 <;> rfl
    | cons c rest =>
      cases f2 with
      | zero => exact absurd h2 (by simp)
      | succ f2 =>
        show normLoopF (f + 1) (c :: rest) prev outRev top isRel =
          normLoopF (f2 + 1) (c :: rest) prev outRev top isRel
        simp only [normLoopF]
        cases rest with
        | nil =>
          by_cases hc : c = '.' <;> by_cases hp : startOrSlash prev <;>
            by_cases hs : isSlash c <;> by_cases ha : afterSlash prev <;>
            simp [hc, hp, hs, ha, normLoopF]
        | cons z zs =>
          simp only [List.length_cons] at h1 h2
          cases zs with
          | nil =>
            by_cases hc : c = '.' <;> by_cases hp : startOrSlash prev <;>
              by_cases hs : isSlash c <;> by_cases ha : afterSlash prev <;>
              by_cases hz : isSlash z <;> by_cases hz2 : z = '.' <;>
              simp [hc, hp, hs, ha, hz, hz2, normLoopF] <;>
              apply ih <;>
              first
                | omega
                | (simp only [List.length_cons]; omega)
          | cons w ws =>
            simp only [List.length_cons] at h1 h2
            by_cases hc : c = '.' <;> by_cases hp : startOrSlash prev <;>
              by_cases hs : isSlash c <;> by_cases ha : afterSlash prev <;>
              by_cases hz : isSlash z <;> by_cases hz2 : z = '.' <;>
              by_cases hw : isSlash w <;>
              simp [hc, hp, hs, ha, hz, hz2, hw, normLoopF] <;>
              apply ih <;>
              first
                | omega
                | (simp only [List.length_cons]; omega)

theorem normLoop_of_fuel {f : Nat} {rem : List Char} {prev : Option Char}
    {outRev : List Char} {top : Nat} {isRel : Bool} (h : rem.length ≤ f) :
    normLoopF f rem prev outRev top isRel = normLoop rem prev outRev top isRel :=
  normLoopF_irrel f rem.length rem prev outRev top isRel h le_rfl

theorem normLoop_nil (prev : Option Char) (outRev : List Char) (top : Nat)
    (isRel : Bool) : normLoop [] prev outRev top isRel = outRev := rfl

/-! ### One-step unfolding lemmas for `normLoop` -/

theorem normLoop_dot_cur_end {prev : Option Char} (hp : startOrSlash prev = true)
    (outRev : List Char) (top : Nat) (isRel : Bool) :
    normLoop ['.'] prev outRev top isRel = outRev := by
  simp [normLoop, normLoopF, hp]

theorem normLoop_dot_cur {prev : Option Char} {z : Char}
    (hp : startOrSlash prev = true) (hz : isSlash z = true) (zs : List Char)
    (outRev : List Char) (top : Nat) (isRel : Bool) :
    normLoop ('.' :: z :: zs) prev outRev top isRel =
      normLoop zs (some z) outRev top isRel := by
  simp only [normLoop, List.length_cons, normLoopF, hp, hz, isSlash_dot,
    if_true, if_false, Bool.false_eq_true, reduceIte]
  exact normLoopF_irrel _ _ zs (some z) outRev top isRel (by omega) le_rfl

theorem normLoop_dot_up_end {prev : Option Char}
    (hp : startOrSlash prev = true) (outRev : List Char) (top : Nat)
    (isRel : Bool) :
    normLoop ['.', '.'] prev outRev top isRel =
      (upState outRev top isRel false).1 := by
  simp [normLoop, normLoopF, hp, isSlash_dot]

theorem normLoop_dot_up {prev : Option Char} {w : Char}
    (hp : startOrSlash prev = true) (hw : isSlash w = true) (ws : List Char)
    (outRev : List Char) (top : Nat) (isRel : Bool) :
    normLoop ('.' :: '.' :: w :: ws) prev outRev top isRel =
      normLoop ws (some w) (upState outRev top isRel true).1
        (upState outRev top isRel true).2 isRel := by
  simp only [normLoop, List.length_cons, normLoopF, hp, hw, isSlash_dot,
    if_true, if_false, Bool.false_eq_true, reduceIte]
  exact normLoopF_irrel _ _ ws (some w) _ _ isRel (by omega) le_rfl

theorem normLoop_dot_notdir_two {prev : Option Char} {w : Char}
    (hp : startOrSlash prev = true) (hw : isSlash w = false) (ws : List Char)
    (outRev : List Char) (top : Nat) (isRel : Bool) :
    normLoop ('.' :: '.' :: w :: ws) prev outRev top isRel =
      normLoop ('.' :: w :: ws) (some '.') ('.' :: outRev) top isRel := by
  simp only [normLoop, List.length_cons, normLoopF, hp, hw, isSlash_dot,
    if_true, if_false, Bool.false_eq_true, reduceIte]

theorem normLoop_dot_notdir {prev : Option Char} {z : Char}
    (hp : startOrSlash prev = true) (hz : isSlash z = false) (hz2 : z ≠ '.')
    (zs : List Char) (outRev : List Char) (top : Nat) (isRel : Bool) :
    normLoop ('.' :: z :: zs) prev outRev top isRel =
      normLoop (z :: zs) (some '.') ('.' :: outRev) top isRel := by
  simp only [normLoop, List.length_cons, normLoopF, hp, hz, hz2, isSlash_dot,
    if_true, if_false, Bool.false_eq_true, reduceIte]

theorem normLoop_dot_copy {prev : Option Char}
    (hp : startOrSlash prev = false) (rest : List Char) (outRev : List Char)
    (top : Nat) (isRel : Bool) :
    normLoop ('.' :: rest) prev outRev top isRel =
      normLoop rest (some '.') ('.' :: outRev) top isRel := by
  simp only [normLoop, List.length_cons, normLoopF, hp, Bool.false_eq_true,
    reduceIte, if_true, if_false]

theorem normLoop_slash_skip {prev : Option Char} {c : Char}
    (hc : isSlash c = true) (ha : afterSlash prev = true) (rest : List Char)
    (outRev : List Char) (top : Nat) (isRel : Bool) :
    normLoop (c :: rest) prev outRev top isRel =
      normLoop rest (some c) outRev top isRel := by
  have hcd : ¬(c = '.') := ne_dot_of_isSlash hc
  simp only [normLoop, List.length_cons, normLoopF, hc, ha, hcd, if_true,
    if_false, Bool.false_eq_true, reduceIte]

theorem normLoop_slash_write {prev : Option Char} {c : Char}
    (hc : isSlash c = true) (ha : afterSlash prev = false) (rest : List Char)
    (outRev : List Char) (top : Nat) (isRel : Bool) :
    normLoop (c :: rest) prev outRev top isRel =
      normLoop rest (some c) ('/' :: outRev) top isRel := by
  have hcd : ¬(c = '.') := ne_dot_of_isSlash hc
  simp only [normLoop, List.length_cons, normLoopF, hc, ha, hcd, if_true,
    if_false, Bool.false_eq_true, reduceIte]

theorem normLoop_copy {prev : Option Char} {c : Char} (hc : c ≠ '.')
    (hs : isSlash c = false) (rest : List Char) (outRev : List Char)
    (top : Nat) (isRel : Bool) :
    normLoop (c :: rest) prev outRev top isRel =
      normLoop rest (some c) (c :: outRev) top isRel := by
  simp only [normLoop, List.length_cons, normLoopF, hc, hs, if_true, if_false,
    Bool.false_eq_true, reduceIte]

/-! ### The output never grows (claim C10 infrastructure) -/

theorem popToSlash_length_le (l : List Char) : (popToSlash l).length ≤ l.length := by
  induction l with
  | nil => simp [popToSlash]
  | cons c rest ih =>
    simp only [popToSlash]
    split
    · exact le_rfl
    · exact Nat.le_trans ih (by simp)

theorem upState_true_length_le (outRev : List Char) (top : Nat)
    (isRel : Bool) :
    ((upState outRev top isRel true).1).length ≤ outRev.length + 3 := by
  have hpop1 := popToSlash_length_le outRev.tail
  have hpop2 := popToSlash_length_le outRev
  have htl := List.length_tail outRev
  simp only [upState]
  split_ifs <;> simp_all <;> omega

theorem upState_false_length_le (outRev : List Char) (top : Nat)
    (isRel : Bool) :
    ((upState outRev top isRel false).1).length ≤ outRev.length + 2 := by
  have hpop1 := popToSlash_length_le outRev.tail
  have hpop2 := popToSlash_length_le outRev
  have htl := List.length_tail outRev
  simp only [upState]
  split_ifs <;> simp_all <;> omega

theorem normLoop_length_le : ∀ (n : Nat) (rem : List Char) (prev : Option Char)
    (outRev : List Char) (top : Nat) (isRel : Bool), rem.length ≤ n →
    (normLoop rem prev outRev top isRel).length ≤
      outRev.length + rem.length := by
  intro n
  induction n with
  | zero =>
    intro rem prev outRev top isRel h1
    have hrem : rem = [] := List.length_eq_zero.mp (Nat.le_zero.mp h1)
    subst hrem
    simp [normLoop_nil]
  | succ n ih =>
    intro rem prev outRev top isRel h1
    match rem with
    | [] => simp [normLoop_nil]
    | c :: rest =>
      have h1r : rest.length ≤ n := by
        simp only [List.length_cons] at h1; omega
      by_cases hc : c = '.'
      · subst hc
        by_cases hp : startOrSlash prev
        · match rest with
          | [] => rw [normLoop_dot_cur_end hp]; simp
          | z :: zs =>
            by_cases hz : isSlash z
            · rw [normLoop_dot_cur hp hz]
              have := ih zs (some z) outRev top isRel (by
                simp only [List.length_cons] at h1r ⊢; omega)
              simp only [List.length_cons]; omega
            · by_cases hz2 : z = '.'
              · subst hz2
                match zs with
                | [] =>
                  rw [normLoop_dot_up_end hp]
                  have := upState_false_length_le outRev top isRel
                  simp only [List.length_cons]; omega
                | w :: ws =>
                  by_cases hw : isSlash w
                  · rw [normLoop_dot_up hp hw]
                    have h3 := upState_true_length_le outRev top isRel
                    have := ih ws (some w) (upState outRev top isRel true).1
                      (upState outRev top isRel true).2 isRel (by
                        simp only [List.length_cons] at h1r ⊢; omega)
                    simp only [List.length_cons] at *; omega
                  · rw [normLoop_dot_notdir_two hp (Bool.not_eq_true _ ▸ hw)]
                    have := ih ('.' :: w :: ws) (some '.') ('.' :: outRev) top
                      isRel (by simp only [List.length_cons] at h1r ⊢; omega)
                    simp only [List.length_cons] at *; omega
              · rw [normLoop_dot_notdir hp (Bool.not_eq_true _ ▸ hz) hz2]
                have := ih (z :: zs) (some '.') ('.' :: outRev) top isRel h1r
                simp only [List.length_cons] at *; omega
        · rw [normLoop_dot_copy (Bool.not_eq_true _ ▸ hp)]
          have := ih rest (some '.') ('.' :: outRev) top isRel h1r
          simp only [List.length_cons] at *; omega
      · by_cases hs : isSlash c
        · by_cases ha : afterSlash prev
          · rw [normLoop_slash_skip hs ha]
            have := ih rest (some c) outRev top isRel h1r
            simp only [List.length_cons] at *; omega
          · rw [normLoop_slash_write hs (Bool.not_eq_true _ ▸ ha)]
            have := ih rest (some c) ('/' :: outRev) top isRel h1r
            simp only [List.length_cons] at *; omega
        · rw [normLoop_copy hc (Bool.not_eq_true _ ▸ hs)]
          have := ih rest (some c) (c :: outRev) top isRel h1r
          simp only [List.length_cons] at *; omega

theorem normalizePath_length_le (path : List Char) :
    (normalizePath path).length ≤ path.length := by
  match path with
  | [] => simp [normalizePath]
  | c :: rest =>
    by_cases hc : c = '/'
    · subst hc
      match rest with
      | [] => simp [normalizePath]
      | c2 :: rest2 =>
        by_cases hc2 : c2 = '/'
        · subst hc2
          have := normLoop_length_le rest2.length rest2 (some '/') ['/', '/']
            2 false le_rfl
          simp only [List.length_cons, List.length_nil] at *
          simp [normalizePath]
          omega
        · have := normLoop_length_le (c2 :: rest2).length (c2 :: rest2)
            (some '/') ['/'] 1 false le_rfl
          simp only [List.length_cons, List.length_nil] at *
          simp [normalizePath, hc2]
          omega
    · have := normLoop_length_le (c :: rest).length (c :: rest) none [] 0 true
        le_rfl
      simp only [List.length_cons, List.length_nil] at *
      simp [normalizePath, hc]
      omega

/-! ### Segments, up-references and the pop operation -/

theorem segsJoin_nil : segsJoin [] = [] := rfl

theorem segsJoin_cons (s : List Char) (rest : List (List Char)) :
    segsJoin (s :: rest) = s ++ '/' :: segsJoin rest := by
  simp [segsJoin]

theorem segsJoin_append (a b : List (List Char)) :
    segsJoin (a ++ b) = segsJoin a ++ segsJoin b := by
  simp [segsJoin]

theorem segsJoin_concat (l : List (List Char)) (s : List Char) :
    segsJoin (l ++ [s]) = segsJoin l ++ (s ++ ['/']) := by
  simp [segsJoin]

theorem segsJoin_ends_slash (post : List (List Char)) (h : post ≠ []) :
    ∃ Y, segsJoin post = Y ++ ['/'] := by
  induction post with
  | nil => exact absurd rfl h
  | cons s rest ih =>
    match rest with
    | [] => exact ⟨s, by simp [segsJoin]⟩
    | r :: rs =>
      obtain ⟨Y, hY⟩ := ih (by simp)
      exact ⟨s ++ '/' :: Y, by simp [segsJoin_cons, hY]⟩

theorem upDirs_zero : upDirs 0 = [] := rfl

theorem upDirs_succ (n : Nat) : upDirs (n + 1) = '.' :: '.' :: '/' :: upDirs n := by
  simp [upDirs, List.replicate_succ]

theorem upDirs_add (a b : Nat) : upDirs (a + b) = upDirs a ++ upDirs b := by
  unfold upDirs
  rw [List.replicate_add, List.flatten_append]

theorem upDirs_length (n : Nat) : (upDirs n).length = 3 * n := by
  induction n with
  | zero => rfl
  | succ n ih =>
    rw [upDirs_succ]
    simp only [List.length_cons, ih]
    ring

theorem upDirs_succ_append (n : Nat) :
    upDirs (n + 1) = upDirs n ++ ['.', '.', '/'] := by
  have : upDirs (n + 1) = upDirs n ++ upDirs 1 := upDirs_add n 1
  simpa [upDirs] using this

theorem popToSlash_append_noslash (a X : List Char)
    (ha : ∀ c ∈ a, isSlash c = false) :
    popToSlash (a ++ X) = popToSlash X := by
  induction a with
  | nil => rfl
  | cons c rest ih =>
    have hc : isSlash c = false := ha c (by simp)
    simp only [List.cons_append, popToSlash, hc, Bool.false_eq_true, if_false]
    exact ih (fun x hx => ha x (by simp [hx]))

theorem popToSlash_fix_nil : popToSlash [] = [] := rfl

theorem popToSlash_fix_slash {c : Char} (hc : isSlash c = true)
    (l : List Char) : popToSlash (c :: l) = c :: l := by
  simp [popToSlash, hc]

theorem isSeg_iff (s : List Char) : isSeg s = true ↔
    s ≠ [] ∧ (∀ c ∈ s, isSlash c = false) ∧ s ≠ ['.'] ∧ s ≠ ['.', '.'] := by
  have hne : s.isEmpty = false ↔ s ≠ [] := by
    cases s <;> simp
  simp only [isSeg, Bool.and_eq_true, Bool.not_eq_true', List.all_eq_true,
    beq_eq_false_iff_ne, ne_eq, hne]
  constructor
  · rintro ⟨⟨⟨h1, h2⟩, h3⟩, h4⟩
    exact ⟨h1, fun c hc => by simpa using h2 c hc, h3, h4⟩
  · rintro ⟨h1, h2, h3, h4⟩
    exact ⟨⟨⟨h1, fun c hc => by simpa using h2 c hc⟩, h3⟩, h4⟩

/-! ### Replaying canonical input through the loop -/

theorem normLoop_copy_run (s : List Char) (hs : ∀ c ∈ s, isSlash c = false) :
    ∀ (p : Char), isSlash p = false →
    ∃ p', isSlash p' = false ∧
      ∀ (rest outRev : List Char) (top : Nat) (isRel : Bool),
        normLoop (s ++ rest) (some p) outRev top isRel =
          normLoop rest (some p') (s.reverse ++ outRev) top isRel := by
  induction s with
  | nil => intro p hp; exact ⟨p, hp, fun rest o t r => by simp⟩
  | cons c s ih =>
    intro p hp
    have hc : isSlash c = false := hs c (by simp)
    obtain ⟨p', hp', heq⟩ := ih (fun x hx => hs x (by simp [hx])) c hc
    refine ⟨p', hp', fun rest o t r => ?_⟩
    have hstep : normLoop (c :: (s ++ rest)) (some p) o t r =
        normLoop (s ++ rest) (some c) (c :: o) t r := by
      by_cases hcd : c = '.'
      · subst hcd
        exact normLoop_dot_copy (by simp [startOrSlash, hp]) _ _ _ _
      · exact normLoop_copy hcd hc _ _ _ _
    rw [List.cons_append, hstep, heq rest (c :: o) t r]
    simp

theorem normLoop_seg (s : List Char) (hseg : isSeg s = true)
    {prev : Option Char} (hp : startOrSlash prev = true) :
    ∃ p', isSlash p' = false ∧
      ∀ (rest outRev : List Char) (top : Nat) (isRel : Bool),
        normLoop (s ++ rest) prev outRev top isRel =
          normLoop rest (some p') (s.reverse ++ outRev) top isRel := by
  obtain ⟨hne, hns, hd1, hd2⟩ := (isSeg_iff s).mp hseg
  match s with
  | [] => exact absurd rfl hne
  | c :: s' =>
    have hc : isSlash c = false := hns c (by simp)
    by_cases hcd : c = '.'
    · subst hcd
      match s' with
      | [] => exact absurd rfl hd1
      | z :: zs =>
        have hz : isSlash z = false := hns z (by simp)
        by_cases hzd : z = '.'
        · subst hzd
          match zs with
          | [] => exact absurd rfl hd2
          | w :: ws =>
            have hw : isSlash w = false := hns w (by simp)
            obtain ⟨p', hp', heq⟩ :=
              normLoop_copy_run (w :: ws) (fun x hx => hns x (by
                simp at hx ⊢
                rcases hx with h | h <;> simp [h])) '.' isSlash_dot
            refine ⟨p', hp', fun rest o t r => ?_⟩
            have h1 : normLoop ('.' :: '.' :: w :: (ws ++ rest)) prev o t r =
                normLoop ('.' :: w :: (ws ++ rest)) (some '.') ('.' :: o) t r :=
              normLoop_dot_notdir_two hp hw _ _ _ _
            have h2 : normLoop ('.' :: w :: (ws ++ rest)) (some '.')
                ('.' :: o) t r =
                normLoop (w :: (ws ++ rest)) (some '.') ('.' :: '.' :: o) t r :=
              normLoop_dot_copy (by simp [startOrSlash, isSlash_dot]) _ _ _ _
            have h3 := heq rest ('.' :: '.' :: o) t r
            simp only [List.cons_append] at *
            rw [h1, h2, h3]
            simp
        · obtain ⟨p', hp', heq⟩ :=
            normLoop_copy_run (z :: zs) (fun x hx => hns x (by
              simp at hx ⊢
              rcases hx with h | h <;> simp [h])) '.' isSlash_dot
          refine ⟨p', hp', fun rest o t r => ?_⟩
          have h1 : normLoop ('.' :: z :: (zs ++ rest)) prev o t r =
              normLoop (z :: (zs ++ rest)) (some '.') ('.' :: o) t r :=
            normLoop_dot_notdir hp hz hzd _ _ _ _
          have h3 := heq rest ('.' :: o) t r
          simp only [List.cons_append] at *
          rw [h1, h3]
          simp
    · obtain ⟨p', hp', heq⟩ :=
        normLoop_copy_run s' (fun x hx => hns x (by simp [hx])) c hc
      refine ⟨p', hp', fun rest o t r => ?_⟩
      have h1 : normLoop (c :: (s' ++ rest)) prev o t r =
          normLoop (s' ++ rest) (some c) (c :: o) t r :=
        normLoop_copy hcd hc _ _ _ _
      have h3 := heq rest (c :: o) t r
      simp only [List.cons_append] at *
      rw [h1, h3]
      simp

theorem normLoop_segsJoin (segs : List (List Char))
    (hsegs : ∀ s ∈ segs, isSeg s = true) :
    ∀ {prev : Option Char}, startOrSlash prev = true →
    ∃ q, startOrSlash q = true ∧
      ∀ (rest outRev : List Char) (top : Nat) (isRel : Bool),
        normLoop (segsJoin segs ++ rest) prev outRev top isRel =
          normLoop rest q ((segsJoin segs).reverse ++ outRev) top isRel := by
  induction segs with
  | nil =>
    intro prev hp
    exact ⟨prev, hp, fun rest o t r => by simp [segsJoin_nil]⟩
  | cons s segs ih =>
    intro prev hp
    obtain ⟨p', hp', heq⟩ := normLoop_seg s (hsegs s (by simp)) hp
    have hps : startOrSlash (some '/') = true := by
      simp [startOrSlash, isSlash]
    obtain ⟨q, hq, heq2⟩ := ih (fun x hx => hsegs x (by simp [hx])) hps
    refine ⟨q, hq, fun rest o t r => ?_⟩
    have h1 := heq ('/' :: (segsJoin segs ++ rest)) o t r
    have h2 : normLoop ('/' :: (segsJoin segs ++ rest)) (some p')
        (s.reverse ++ o) t r =
        normLoop (segsJoin segs ++ rest) (some '/')
          ('/' :: s.reverse ++ o) t r :=
      normLoop_slash_write (by simp [isSlash]) (by simp [afterSlash, hp'])
        _ _ _ _
    have h3 := heq2 rest ('/' :: s.reverse ++ o) t r
    calc normLoop (segsJoin (s :: segs) ++ rest) prev o t r
        = normLoop (s ++ ('/' :: (segsJoin segs ++ rest))) prev o t r := by
          rw [segsJoin_cons]; simp
      _ = normLoop ('/' :: (segsJoin segs ++ rest)) (some p')
            (s.reverse ++ o) t r := h1
      _ = normLoop (segsJoin segs ++ rest) (some '/')
            ('/' :: s.reverse ++ o) t r := h2
      _ = normLoop rest q ((segsJoin segs).reverse ++
            ('/' :: s.reverse ++ o)) t r := h3
      _ = normLoop rest q ((segsJoin (s :: segs)).reverse ++ o) t r := by
          rw [segsJoin_cons]; simp

theorem normLoop_seg_end (s : List Char) (hseg : isSeg s = true)
    {prev : Option Char} (hp : startOrSlash prev = true)
    (outRev : List Char) (top : Nat) (isRel : Bool) :
    normLoop s prev outRev top isRel = s.reverse ++ outRev := by
  obtain ⟨p', _, heq⟩ := normLoop_seg s hseg hp
  have := heq [] outRev top isRel
  simpa [normLoop_nil] using this

theorem intercalate_cons_cons (sep x y : List Char) (l : List (List Char)) :
    List.intercalate sep (x :: y :: l) =
      x ++ sep ++ List.intercalate sep (y :: l) := by
  simp [List.intercalate, List.intersperse]

theorem normLoop_intercalate (segs : List (List Char)) (hne : segs ≠ [])
    (hsegs : ∀ s ∈ segs, isSeg s = true) {prev : Option Char}
    (hp : startOrSlash prev = true) (outRev : List Char) (top : Nat)
    (isRel : Bool) :
    normLoop (List.intercalate ['/'] segs) prev outRev top isRel =
      (List.intercalate ['/'] segs).reverse ++ outRev := by
  induction segs generalizing prev outRev with
  | nil => exact absurd rfl hne
  | cons s segs ih =>
    match segs with
    | [] =>
      have : List.intercalate ['/'] [s] = s := by simp [List.intercalate]
      rw [this]
      exact normLoop_seg_end s (hsegs s (by simp)) hp outRev top isRel
    | s2 :: rest =>
      obtain ⟨p', hp', heq⟩ := normLoop_seg s (hsegs s (by simp)) hp
      rw [intercalate_cons_cons]
      have h1 := heq ('/' :: List.intercalate ['/'] (s2 :: rest)) outRev top
        isRel
      have h2 : normLoop ('/' :: List.intercalate ['/'] (s2 :: rest))
          (some p') (s.reverse ++ outRev) top isRel =
          normLoop (List.intercalate ['/'] (s2 :: rest)) (some '/')
            ('/' :: s.reverse ++ outRev) top isRel :=
        normLoop_slash_write (by simp [isSlash]) (by simp [afterSlash, hp'])
          _ _ _ _
      have hps : startOrSlash (some '/') = true := by
        simp [startOrSlash, isSlash]
      have h3 := ih (by simp) (fun x hx => hsegs x (by simp [hx])) hps
        ('/' :: s.reverse ++ outRev)
      calc normLoop ((s ++ ['/']) ++ List.intercalate ['/'] (s2 :: rest))
            prev outRev top isRel
          = normLoop (s ++ ('/' :: List.intercalate ['/'] (s2 :: rest)))
              prev outRev top isRel := by simp
        _ = normLoop ('/' :: List.intercalate ['/'] (s2 :: rest)) (some p')
              (s.reverse ++ outRev) top isRel := h1
        _ = normLoop (List.intercalate ['/'] (s2 :: rest)) (some '/')
              ('/' :: s.reverse ++ outRev) top isRel := h2
        _ = (List.intercalate ['/'] (s2 :: rest)).reverse ++
              ('/' :: s.reverse ++ outRev) := h3
        _ = ((s ++ ['/']) ++ List.intercalate ['/'] (s2 :: rest)).reverse ++
              outRev := by simp

/-! ### Popping segments with `..` -/

theorem upState_pop (s X : List Char) (top : Nat) (isRel hasSlash : Bool)
    (hne : s ≠ []) (hs : ∀ c ∈ s, isSlash c = false) (htop : top ≤ X.length)
    (hX : popToSlash X = X) :
    upState ('/' :: (s.reverse ++ X)) top isRel hasSlash = (X, top) := by
  have hslen : 0 < s.length := List.length_pos.mpr hne
  have hlen : ('/' :: (s.reverse ++ X)).length = s.length + X.length + 1 := by
    simp <;> omega
  have htop1 : top < ('/' :: (s.reverse ++ X)).length := by omega
  have htail : ('/' :: (s.reverse ++ X)).tail = s.reverse ++ X := rfl
  have htop2 : ¬((s.reverse ++ X).length = top) := by simp <;> omega
  have hpop : popToSlash (s.reverse ++ X) = X := by
    rw [popToSlash_append_noslash s.reverse X (fun c hc => hs c (by
      simpa using hc)), hX]
  simp only [upState, if_pos htop1, htail, htop2, if_false, hpop]

theorem normLoop_up_pop (s X : List Char) (zs : List Char)
    {prev : Option Char} (hp : startOrSlash prev = true) (top : Nat)
    (isRel : Bool) (hne : s ≠ []) (hs : ∀ c ∈ s, isSlash c = false)
    (htop : top ≤ X.length) (hX : popToSlash X = X) :
    normLoop ('.' :: '.' :: '/' :: zs) prev ('/' :: (s.reverse ++ X)) top
        isRel =
      normLoop zs (some '/') X top isRel := by
  rw [normLoop_dot_up hp (by simp [isSlash]) zs _ top isRel,
    upState_pop s X top isRel true hne hs htop hX]

theorem normLoop_popAll (post : List (List Char))
    (hsegs : ∀ s ∈ post, isSeg s = true) :
    ∀ {prev : Option Char}, startOrSlash prev = true →
    ∃ q, startOrSlash q = true ∧
      ∀ (X : List Char) (zs : List Char) (top : Nat) (isRel : Bool),
        top ≤ X.length → popToSlash X.reverse = X.reverse →
        normLoop (upDirs post.length ++ zs) prev
            ((X ++ segsJoin post).reverse) top isRel =
          normLoop zs q X.reverse top isRel := by
  induction post using List.reverseRecOn with
  | nil =>
    intro prev hp
    exact ⟨prev, hp, fun X zs top isRel _ _ => by
      simp [segsJoin_nil, upDirs_zero]⟩
  | append_singleton post s ih =>
    intro prev hp
    have hps : startOrSlash (some '/') = true := by
      simp [startOrSlash, isSlash]
    obtain ⟨q, hq, heq⟩ := ih (fun x hx => hsegs x (by simp [hx])) hps
    refine ⟨q, hq, fun X zs top isRel htop hX => ?_⟩
    have hseg : isSeg s = true := hsegs s (by simp)
    obtain ⟨hne, hns, _, _⟩ := (isSeg_iff s).mp hseg
    have hlen : (post ++ [s]).length = post.length + 1 := by simp
    rw [hlen, upDirs_succ, segsJoin_concat]
    have hrev : (X ++ (segsJoin post ++ (s ++ ['/']))).reverse =
        '/' :: (s.reverse ++ (X ++ segsJoin post).reverse) := by simp
    rw [hrev]
    simp only [List.cons_append]
    have hpopfix : popToSlash ((X ++ segsJoin post).reverse) =
        (X ++ segsJoin post).reverse := by
      match hpost : post with
      | [] => simpa [segsJoin_nil] using hX
      | p :: ps =>
        obtain ⟨Y, hY⟩ := segsJoin_ends_slash (p :: ps) (by simp)
        rw [hY]
        simp only [List.reverse_append, List.reverse_cons, List.reverse_nil,
          List.nil_append, List.cons_append]
        exact popToSlash_fix_slash (by simp [isSlash]) _
    have h1 := normLoop_up_pop s ((X ++ segsJoin post).reverse)
      (upDirs post.length ++ zs) hp top isRel hne hns
      (by simp; omega) hpopfix
    rw [h1]
    have h2 := heq X zs top isRel htop hX
    rw [← List.reverse_reverse (X ++ segsJoin post)] at h2
    simpa using h2

/-! ### Accumulating `..` at the top of a relative path -/

theorem normLoop_dots (j : Nat) :
    ∀ {prev : Option Char}, startOrSlash prev = true →
    ∃ q, startOrSlash q = true ∧
      ∀ (zs : List Char) (j' : Nat),
        normLoop (upDirs j ++ zs) prev ((upDirs j').reverse)
            (upDirs j').length true =
          normLoop zs q ((upDirs (j' + j)).reverse)
            (upDirs (j' + j)).length true := by
  induction j with
  | zero =>
    intro prev hp
    exact ⟨prev, hp, fun zs j' => by simp [upDirs_zero]⟩
  | succ j ih =>
    intro prev hp
    have hps : startOrSlash (some '/') = true := by
      simp [startOrSlash, isSlash]
    obtain ⟨q, hq, heq⟩ := ih hps
    refine ⟨q, hq, fun zs j' => ?_⟩
    have hup : upState ((upDirs j').reverse) (upDirs j').length true true =
        ((upDirs (j' + 1)).reverse, (upDirs (j' + 1)).length) := by
      have h1 : ¬((upDirs j').length < (upDirs j').reverse.length) := by simp
      have h2 : (upDirs j').reverse.length = (upDirs j').length := by simp
      have e : '/' :: '.' :: '.' :: (upDirs j').reverse =
          (upDirs (j' + 1)).reverse := by
        rw [upDirs_succ_append]; simp
      simp only [upState, List.length_reverse, lt_self_iff_false, if_false,
        eq_self_iff_true, if_true]
      rw [Prod.mk.injEq]
      refine ⟨e, ?_⟩
      simp only [List.length_cons, List.length_reverse, upDirs_length]
      omega
    have h1 : normLoop (upDirs (j + 1) ++ zs) prev ((upDirs j').reverse)
        (upDirs j').length true =
        normLoop (upDirs j ++ zs) (some '/') ((upDirs (j' + 1)).reverse)
          (upDirs (j' + 1)).length true := by
      rw [upDirs_succ, List.cons_append, List.cons_append, List.cons_append,
        normLoop_dot_up hp (by simp [isSlash]) _ _ _ _, hup]
    rw [h1, heq zs (j' + 1)]
    have : j' + 1 + j = j' + (j + 1) := by omega
    rw [this]

theorem normLoop_dangle (j : Nat) {prev : Option Char}
    (hp : startOrSlash prev = true) :
    normLoop ['.', '.'] prev ((upDirs j).reverse) (upDirs j).length true =
      (upDirs j ++ ['.', '.']).reverse := by
  rw [normLoop_dot_up_end hp]
  have h1 : ¬((upDirs j).length < (upDirs j).reverse.length) := by simp
  have h2 : (upDirs j).reverse.length = (upDirs j).length := by simp
  simp only [upState, h1, if_false, h2, if_pos rfl, if_pos rfl]
  simp

/-! ### Directory inversion (claim C3 infrastructure) -/

theorem segsJoin_filter_slash (segs : List (List Char))
    (hsegs : ∀ s ∈ segs, isSeg s = true) :
    ((segsJoin segs).filter (fun c => isSlash c)).length = segs.length := by
  induction segs with
  | nil => simp [segsJoin_nil]
  | cons s rest ih =>
    obtain ⟨_, hns, _, _⟩ := (isSeg_iff s).mp (hsegs s (by simp))
    have hfs : s.filter (fun c => isSlash c) = [] := by
      rw [List.filter_eq_nil_iff]
      intro c hc
      simp [hns c hc]
    rw [segsJoin_cons]
    simp only [List.filter_append, List.filter_cons, List.length_append,
      hfs, isSlash_fwd]
    simp only [List.length_nil, if_pos trivial, List.length_cons]
    rw [ih (fun x hx => hsegs x (by simp [hx]))]
    simp <;> omega

theorem invertDir_mkSourceDir (dsegs : List (List Char))
    (hsegs : ∀ s ∈ dsegs, isSeg s = true) :
    invertDir (mkSourceDir dsegs) = upDirs dsegs.length := by
  have hne : ¬(mkSourceDir dsegs = []) := by simp [mkSourceDir]
  have hget : (mkSourceDir dsegs).getD 1 ' ' = '/' := rfl
  have hlen : 1 < (mkSourceDir dsegs).length := by simp [mkSourceDir]
  simp only [invertDir]
  rw [if_neg hne, if_pos ⟨hlen, hget⟩]
  have hdrop : (mkSourceDir dsegs).drop 2 = segsJoin dsegs := rfl
  rw [hdrop, segsJoin_filter_slash dsegs hsegs]

theorem normalizePath_two_slashes (rest : List Char) :
    normalizePath ('/' :: '/' :: rest) =
      (normLoop rest (some '/') ['/', '/'] 2 false).reverse := by
  simp [normalizePath]

theorem normalize_dir_invert (dsegs : List (List Char))
    (hsegs : ∀ s ∈ dsegs, isSeg s = true) :
    normalizePath (mkSourceDir dsegs ++ upDirs dsegs.length) = ['/', '/'] := by
  have h0 : mkSourceDir dsegs ++ upDirs dsegs.length =
      '/' :: '/' :: (segsJoin dsegs ++ upDirs dsegs.length) := by
    simp [mkSourceDir]
  rw [h0, normalizePath_two_slashes]
  have hps : startOrSlash (some '/') = true := by
    simp [startOrSlash, isSlash]
  obtain ⟨q, hq, heq⟩ := normLoop_segsJoin dsegs hsegs hps
  rw [heq (upDirs dsegs.length) ['/', '/'] 2 false]
  obtain ⟨q2, _, heq2⟩ := normLoop_popAll dsegs hsegs hq
  have h2 := heq2 ['/', '/'] [] 2 false (by simp)
    (by exact popToSlash_fix_slash (by simp [isSlash]) _)
  have h3 : (['/', '/'] ++ segsJoin dsegs).reverse =
      (segsJoin dsegs).reverse ++ ['/', '/'] := by simp
  rw [h3, List.append_nil] at h2
  rw [h2]
  simp [normLoop_nil]

/-! ### Rebase round trip (claim C2 infrastructure) -/

theorem take_eq_of_getD_eq (f d : List Char) (r : Nat) (hf : r ≤ f.length)
    (hd : r ≤ d.length) (h : ∀ k, k < r → f.getD k ' ' = d.getD k ' ') :
    f.take r = d.take r := by
  apply List.ext_getElem
  · simp; omega
  · intro i h1 h2
    simp only [List.getElem_take]
    have hif : i < f.length := by simp at h1; omega
    have hid : i < d.length := by simp at h2; omega
    have := h i (by simp at h1; omega)
    rw [List.getD_eq_getElem f ' ' hif, List.getD_eq_getElem d ' ' hid] at this
    exact this

theorem rebaseScan_sound (f d : List Char) (maxc : Nat)
    (hmaxf : maxc ≤ f.length) (hmaxd : maxc ≤ d.length)
    (hone : ∀ k, k < f.length → isSlash (f.getD k ' ') = true →
      f.getD k ' ' = '/')
    (hond : ∀ k, k < d.length → isSlash (d.getD k ' ') = true →
      d.getD k ' ' = '/') :
    ∀ (fuel i cpl : Nat), maxc - i ≤ fuel → 2 ≤ cpl → cpl ≤ i → cpl ≤ maxc →
    (∀ k, k < i → f.getD k ' ' = d.getD k ' ') →
    (cpl = 2 ∨ isSlash (f.getD (cpl - 1) ' ') = true) →
    2 ≤ rebaseScan f d maxc i cpl ∧ rebaseScan f d maxc i cpl ≤ maxc ∧
    (∀ k, k < rebaseScan f d maxc i cpl → f.getD k ' ' = d.getD k ' ') ∧
    (rebaseScan f d maxc i cpl = 2 ∨
      isSlash (f.getD (rebaseScan f d maxc i cpl - 1) ' ') = true) := by
  intro fuel
  induction fuel with
  | zero =>
    intro i cpl hfuel h2 hle hmax heqk hb
    have hnot : ¬(i < maxc) := by omega
    rw [rebaseScan, dif_neg hnot]
    exact ⟨h2, hmax, fun k hk => heqk k (by omega), hb⟩
  | succ fuel ih =>
    intro i cpl hfuel h2 hle hmax heqk hb
    by_cases hlt : i < maxc
    · rw [rebaseScan, dif_pos hlt]
      by_cases hslash : isSlash (f.getD i ' ') = true ∧
          isSlash (d.getD i ' ') = true
      · rw [if_pos hslash]
        have heq : f.getD i ' ' = d.getD i ' ' := by
          rw [hone i (by omega) hslash.1, hond i (by omega) hslash.2]
        exact ih (i + 1) (i + 1) (by omega) (by omega) le_rfl (by omega)
          (fun k hk => by
            by_cases hki : k < i
            · exact heqk k hki
            · have : k = i := by omega
              subst this; exact heq)
          (Or.inr (by simpa using hslash.1))
      · rw [if_neg hslash]
        by_cases hne : f.getD i ' ' ≠ d.getD i ' '
        · rw [if_pos hne]
          exact ⟨h2, hmax, fun k hk => heqk k (by omega), hb⟩
        · rw [if_neg hne]
          push_neg at hne
          exact ih (i + 1) cpl (by omega) h2 (by omega) hmax
            (fun k hk => by
              by_cases hki : k < i
              · exact heqk k hki
              · have : k = i := by omega
                subst this; exact hne)
            hb
    · rw [rebaseScan, dif_neg hlt]
      exact ⟨h2, hmax, fun k hk => heqk k (by omega), hb⟩

theorem intercalate_singleton (s : List Char) :
    List.intercalate ['/'] [s] = s := by
  simp [List.intercalate]

theorem segsJoin_boundary (segs : List (List Char))
    (hsegs : ∀ s ∈ segs, isSeg s = true) :
    ∀ (m : Nat), m ≤ (segsJoin segs).length →
    (m = 0 ∨ (segsJoin segs).getD (m - 1) ' ' = '/') →
    ∃ pre post, segs = pre ++ post ∧
      (segsJoin segs).take m = segsJoin pre ∧
      (segsJoin segs).drop m = segsJoin post := by
  induction segs with
  | nil =>
    intro m hm _
    simp only [segsJoin_nil, List.length_nil, Nat.le_zero] at hm
    subst hm
    exact ⟨[], [], rfl, by simp [segsJoin_nil], by simp [segsJoin_nil]⟩
  | cons s rest ih =>
    intro m hm hb
    obtain ⟨hne, hns, _, _⟩ := (isSeg_iff s).mp (hsegs s (by simp))
    have hsp : segsJoin (s :: rest) = (s ++ ['/']) ++ segsJoin rest := by
      rw [segsJoin_cons]; simp
    have hcases : m = 0 ∨ (1 ≤ m ∧ m ≤ s.length) ∨ m = s.length + 1 ∨
        s.length + 1 < m := by omega
    rcases hcases with hm0 | ⟨hm1, hm2⟩ | hm3 | hm4
    · subst hm0
      exact ⟨[], s :: rest, rfl, by simp [segsJoin_nil], by simp⟩
    · exfalso
      rcases hb with hb0 | hsl
      · omega
      have hin : (segsJoin (s :: rest)).getD (m - 1) ' ' =
          s.getD (m - 1) ' ' := by
        rw [segsJoin_cons]
        exact List.getD_append s ('/' :: segsJoin rest) ' ' (m - 1) (by omega)
      have hmem : s.getD (m - 1) ' ' ∈ s := by
        rw [List.getD_eq_getElem s ' ' (by omega)]
        exact List.getElem_mem _
      have := hns _ hmem
      rw [hin] at hsl
      rw [hsl] at this
      simp [isSlash] at this
    · subst hm3
      have hlen1 : s.length + 1 = (s ++ ['/']).length + 0 := by simp
      refine ⟨[s], rest, rfl, ?_, ?_⟩
      · rw [hsp, hlen1, List.take_append]
        simp [segsJoin, List.flatten]
      · rw [hsp, hlen1, List.drop_append]
        simp
    · have hm' : m - s.length - 1 ≤ (segsJoin rest).length := by
        rw [hsp] at hm
        simp at hm
        omega
      have hmsplit : m = (s ++ ['/']).length + (m - s.length - 1) := by
        simp; omega
      have hb' : m - s.length - 1 = 0 ∨
          (segsJoin rest).getD (m - s.length - 1 - 1) ' ' = '/' := by
        right
        rcases hb with hb0 | hsl
        · omega
        have hgd : (segsJoin (s :: rest)).getD (m - 1) ' ' =
            (segsJoin rest).getD (m - 1 - (s ++ ['/']).length) ' ' := by
          rw [hsp]
          exact List.getD_append_right (s ++ ['/']) (segsJoin rest) ' '
            (m - 1) (by simp; omega)
        rw [hgd] at hsl
        have harith : m - 1 - (s ++ ['/']).length = m - s.length - 1 - 1 := by
          simp; omega
        rw [harith] at hsl
        exact hsl
      obtain ⟨pre', post', hsplit2, htake, hdrop⟩ :=
        ih (fun x hx => hsegs x (by simp [hx])) (m - s.length - 1) hm' hb'
      refine ⟨s :: pre', post', by rw [hsplit2]; simp, ?_, ?_⟩
      · rw [hsp, hmsplit, List.take_append, htake, segsJoin_cons]
        simp
      · rw [hsp, hmsplit, List.drop_append, hdrop]

theorem intercalate_boundary (segs : List (List Char))
    (hsegs : ∀ s ∈ segs, isSeg s = true) (hne0 : segs ≠ []) :
    ∀ (m : Nat), m ≤ (List.intercalate ['/'] segs).length →
    (m = 0 ∨ (List.intercalate ['/'] segs).getD (m - 1) ' ' = '/') →
    ∃ pre post, segs = pre ++ post ∧ post ≠ [] ∧
      (List.intercalate ['/'] segs).take m = segsJoin pre ∧
      (List.intercalate ['/'] segs).drop m = List.intercalate ['/'] post := by
  induction segs with
  | nil => exact absurd rfl hne0
  | cons s rest ih =>
    intro m hm hb
    obtain ⟨hne, hns, _, _⟩ := (isSeg_iff s).mp (hsegs s (by simp))
    match rest with
    | [] =>
      rw [intercalate_singleton] at hm hb ⊢
      have hm0 : m = 0 := by
        rcases hb with hb0 | hsl
        · exact hb0
        by_cases hmz : m = 0
        · exact hmz
        exfalso
        have hmem : s.getD (m - 1) ' ' ∈ s := by
          rw [List.getD_eq_getElem s ' ' (by omega)]
          exact List.getElem_mem _
        have := hns _ hmem
        rw [hsl] at this
        simp [isSlash] at this
      subst hm0
      exact ⟨[], [s], rfl, by simp, by simp [segsJoin_nil], by
        simp [intercalate_singleton]⟩
    | r :: rs =>
      have hic : List.intercalate ['/'] (s :: r :: rs) =
          (s ++ ['/']) ++ List.intercalate ['/'] (r :: rs) := by
        rw [intercalate_cons_cons]
      have hcases : m = 0 ∨ (1 ≤ m ∧ m ≤ s.length) ∨ m = s.length + 1 ∨
          s.length + 1 < m := by omega
      rcases hcases with hm0 | ⟨hm1, hm2⟩ | hm3 | hm4
      · subst hm0
        exact ⟨[], s :: r :: rs, rfl, by simp, by simp [segsJoin_nil],
          by simp⟩
      · exfalso
        rcases hb with hb0 | hsl
        · omega
        have hin : (List.intercalate ['/'] (s :: r :: rs)).getD (m - 1) ' ' =
            s.getD (m - 1) ' ' := by
          rw [hic]
          have := List.getD_append (s ++ ['/'])
            (List.intercalate ['/'] (r :: rs)) ' ' (m - 1) (by simp; omega)
          rw [this]
          exact List.getD_append s ['/'] ' ' (m - 1) (by omega)
        have hmem : s.getD (m - 1) ' ' ∈ s := by
          rw [List.getD_eq_getElem s ' ' (by omega)]
          exact List.getElem_mem _
        have := hns _ hmem
        rw [hin] at hsl
        rw [hsl] at this
        simp [isSlash] at this
      · subst hm3
        have hlen1 : s.length + 1 = (s ++ ['/']).length + 0 := by simp
        refine ⟨[s], r :: rs, rfl, by simp, ?_, ?_⟩
        · rw [hic, hlen1, List.take_append]
          simp [segsJoin, List.flatten]
        · rw [hic, hlen1, List.drop_append]
          simp
      · have hlen : (List.intercalate ['/'] (s :: r :: rs)).length =
            (s ++ ['/']).length + (List.intercalate ['/'] (r :: rs)).length := by
          rw [hic]; simp; omega
        have hm' : m - s.length - 1 ≤
            (List.intercalate ['/'] (r :: rs)).length := by
          simp only [hlen] at hm
          simp at hm ⊢
          omega
        have hmsplit : m = (s ++ ['/']).length + (m - s.length - 1) := by
          simp; omega
        have hb' : m - s.length - 1 = 0 ∨
            (List.intercalate ['/'] (r :: rs)).getD
              (m - s.length - 1 - 1) ' ' = '/' := by
          right
          rcases hb with hb0 | hsl
          · omega
          have hgd : (List.intercalate ['/'] (s :: r :: rs)).getD (m - 1) ' ' =
              (List.intercalate ['/'] (r :: rs)).getD
                (m - 1 - (s ++ ['/']).length) ' ' := by
            rw [hic]
            exact List.getD_append_right (s ++ ['/'])
              (List.intercalate ['/'] (r :: rs)) ' ' (m - 1) (by simp; omega)
          rw [hgd] at hsl
          have harith : m - 1 - (s ++ ['/']).length = m - s.length - 1 - 1 := by
            simp; omega
          rw [harith] at hsl
          exact hsl
        obtain ⟨pre', post', hsplit2, hpne, htake, hdrop⟩ :=
          ih (fun x hx => hsegs x (by simp [hx])) (by simp)
            (m - s.length - 1) hm' hb'
        refine ⟨s :: pre', post', by rw [hsplit2]; simp, hpne, ?_, ?_⟩
        · rw [hic, hmsplit, List.take_append, htake, segsJoin_cons]
          simp
        · rw [hic, hmsplit, List.drop_append, hdrop]

theorem intercalate_slash_mem (segs : List (List Char))
    (hsegs : ∀ s ∈ segs, isSeg s = true) :
    ∀ c ∈ List.intercalate ['/'] segs, isSlash c = true → c = '/' := by
  induction segs with
  | nil => intro c hc; simp [List.intercalate] at hc
  | cons s rest ih =>
    intro c hc hslash
    obtain ⟨_, hns, _, _⟩ := (isSeg_iff s).mp (hsegs s (by simp))
    match rest with
    | [] =>
      rw [intercalate_singleton] at hc
      exact absurd hslash (by simp [hns c hc])
    | r :: rs =>
      rw [intercalate_cons_cons] at hc
      simp only [List.mem_append] at hc
      rcases hc with (hc | hc) | hc
      · exact absurd hslash (by simp [hns c hc])
      · simpa using hc
      · exact ih (fun x hx => hsegs x (by simp [hx])) c hc hslash

theorem segsJoin_slash_mem (segs : List (List Char))
    (hsegs : ∀ s ∈ segs, isSeg s = true) :
    ∀ c ∈ segsJoin segs, isSlash c = true → c = '/' := by
  induction segs with
  | nil => intro c hc; simp [segsJoin_nil] at hc
  | cons s rest ih =>
    intro c hc hslash
    obtain ⟨_, hns, _, _⟩ := (isSeg_iff s).mp (hsegs s (by simp))
    rw [segsJoin_cons] at hc
    simp only [List.mem_append, List.mem_cons] at hc
    rcases hc with hc | hc | hc
    · exact absurd hslash (by simp [hns c hc])
    · exact hc
    · exact ih (fun x hx => hsegs x (by simp [hx])) c hc hslash

theorem mkSourceFile_slash_getD (fsegs : List (List Char))
    (hsegs : ∀ s ∈ fsegs, isSeg s = true) :
    ∀ k, k < (mkSourceFile fsegs).length →
      isSlash ((mkSourceFile fsegs).getD k ' ') = true →
      (mkSourceFile fsegs).getD k ' ' = '/' := by
  intro k hk hslash
  have hmem : (mkSourceFile fsegs).getD k ' ' ∈ mkSourceFile fsegs := by
    rw [List.getD_eq_getElem _ ' ' hk]
    exact List.getElem_mem _
  simp only [mkSourceFile, List.mem_cons] at hmem
  rcases hmem with h | h | h
  · exact h
  · exact h
  · exact intercalate_slash_mem fsegs hsegs _ h hslash

theorem mkSourceDir_slash_getD (dsegs : List (List Char))
    (hsegs : ∀ s ∈ dsegs, isSeg s = true) :
    ∀ k, k < (mkSourceDir dsegs).length →
      isSlash ((mkSourceDir dsegs).getD k ' ') = true →
      (mkSourceDir dsegs).getD k ' ' = '/' := by
  intro k hk hslash
  have hmem : (mkSourceDir dsegs).getD k ' ' ∈ mkSourceDir dsegs := by
    rw [List.getD_eq_getElem _ ' ' hk]
    exact List.getElem_mem _
  simp only [mkSourceDir, List.mem_cons] at hmem
  rcases hmem with h | h | h
  · exact h
  · exact h
  · exact segsJoin_slash_mem dsegs hsegs _ h hslash

theorem intercalate_ne_nil (segs : List (List Char)) (hne : segs ≠ [])
    (hsegs : ∀ s ∈ segs, isSeg s = true) :
    List.intercalate ['/'] segs ≠ [] := by
  match segs with
  | [] => exact absurd rfl hne
  | s :: rest =>
    obtain ⟨hsne, _, _, _⟩ := (isSeg_iff s).mp (hsegs s (by simp))
    match rest with
    | [] => rw [intercalate_singleton]; exact hsne
    | r :: rs =>
      rw [intercalate_cons_cons]
      intro h
      simp at h

theorem rebase_roundtrip (fsegs dsegs : List (List Char)) (hfne : fsegs ≠ [])
    (hfs : ∀ s ∈ fsegs, isSeg s = true)
    (hds : ∀ s ∈ dsegs, isSeg s = true) :
    normalizePath (mkSourceDir dsegs ++
      rebaseSourceAbsolutePath (mkSourceFile fsegs) (mkSourceDir dsegs)) =
      mkSourceFile fsegs := by
  set f := mkSourceFile fsegs with hf
  set d := mkSourceDir dsegs with hd
  set I := List.intercalate ['/'] fsegs with hI
  set J := segsJoin dsegs with hJ
  have hfI : f = '/' :: '/' :: I := rfl
  have hdJ : d = '/' :: '/' :: J := rfl
  have hflen : f.length = I.length + 2 := by rw [hfI]; simp
  have hdlen : d.length = J.length + 2 := by rw [hdJ]; simp
  have hmaxf : min f.length d.length ≤ f.length := min_le_left _ _
  have hmaxd : min f.length d.length ≤ d.length := min_le_right _ _
  have h2max : 2 ≤ min f.length d.length := by
    simp only [le_min_iff]
    omega
  set r := rebaseScan f d (min f.length d.length) 2 2 with hr
  obtain ⟨hr2, hrmax, heqk, hbound⟩ :=
    rebaseScan_sound f d (min f.length d.length) hmaxf hmaxd
      (mkSourceFile_slash_getD fsegs hfs) (mkSourceDir_slash_getD dsegs hds)
      (min f.length d.length) 2 2 (by omega) le_rfl le_rfl h2max
      (by intro k hk; interval_cases k <;> rfl) (Or.inl rfl)
  have hrf : r ≤ f.length := le_trans hrmax hmaxf
  have hrd : r ≤ d.length := le_trans hrmax hmaxd
  have htake := take_eq_of_getD_eq f d r hrf hrd heqk
  set m := r - 2 with hm
  have hrm : r = m + 2 := by omega
  have hmJ : m ≤ J.length := by omega
  have hmI : m ≤ I.length := by omega
  have hgdf : ∀ hm1 : 1 ≤ m, f.getD (r - 1) ' ' = I.getD (m - 1) ' ' := by
    intro hm1
    rw [hfI]
    have : r - 1 = (m - 1) + 2 := by omega
    rw [this]
    rfl
  have hslashf : 1 ≤ m → I.getD (m - 1) ' ' = '/' := by
    intro hm1
    rcases hbound with hb2 | hsl
    · omega
    have := mkSourceFile_slash_getD fsegs hfs (r - 1) (by rw [← hf]; omega) hsl
    rw [hgdf hm1] at this
    exact this
  have hbI : m = 0 ∨ I.getD (m - 1) ' ' = '/' := by
    by_cases hm0 : m = 0
    · exact Or.inl hm0
    · exact Or.inr (hslashf (by omega))
  have hbJ : m = 0 ∨ J.getD (m - 1) ' ' = '/' := by
    by_cases hm0 : m = 0
    · exact Or.inl hm0
    · right
      have hdf : d.getD (r - 1) ' ' = f.getD (r - 1) ' ' :=
        (heqk (r - 1) (by omega)).symm
      have hgdd : d.getD (r - 1) ' ' = J.getD (m - 1) ' ' := by
        rw [hdJ]
        have : r - 1 = (m - 1) + 2 := by omega
        rw [this]
        rfl
      rw [← hgdd, hdf, hgdf (by omega)]
      exact hslashf (by omega)
  obtain ⟨preD, postD, hDsplit, hDtake, hDdrop⟩ :=
    segsJoin_boundary dsegs hds m hmJ hbJ
  obtain ⟨preF, postF, hFsplit, hFne, hFtake, hFdrop⟩ :=
    intercalate_boundary fsegs hfs hfne m hmI hbI
  have hpreDs : ∀ s ∈ preD, isSeg s = true := fun s hs =>
    hds s (by rw [hDsplit]; simp [hs])
  have hpostDs : ∀ s ∈ postD, isSeg s = true := fun s hs =>
    hds s (by rw [hDsplit]; simp [hs])
  have hpostFs : ∀ s ∈ postF, isSeg s = true := fun s hs =>
    hfs s (by rw [hFsplit]; simp [hs])
  -- the shared prefixes coincide
  have htakeI : f.take r = '/' :: '/' :: I.take m := by
    rw [hfI, hrm]
    rfl
  have htakeJ : d.take r = '/' :: '/' :: J.take m := by
    rw [hdJ, hrm]
    rfl
  have hpre_eq : segsJoin preF = segsJoin preD := by
    rw [← hFtake, ← hDtake]
    have : I.take m = J.take m := by
      have := htake
      rw [htakeI, htakeJ] at this
      simpa using this
    rw [this]
  -- the rebased path
  have hIdrop : f.drop r = List.intercalate ['/'] postF := by
    rw [hfI, hrm]
    have : ('/' :: '/' :: I).drop (m + 2) = I.drop m := rfl
    rw [this, hFdrop]
  have hJdrop : d.drop r = segsJoin postD := by
    rw [hdJ, hrm]
    have : ('/' :: '/' :: J).drop (m + 2) = J.drop m := rfl
    rw [this, hDdrop]
  have hpostF_ne : List.intercalate ['/'] postF ≠ [] :=
    intercalate_ne_nil postF hFne hpostFs
  have hrebase : rebaseSourceAbsolutePath f d =
      upDirs postD.length ++ List.intercalate ['/'] postF := by
    simp only [rebaseSourceAbsolutePath, ← hr, hJdrop, hIdrop]
    rw [segsJoin_filter_slash postD hpostDs]
    rw [if_neg (by simp [hpostF_ne])]
  -- run the normalizer
  rw [hrebase]
  have hinput : d ++ (upDirs postD.length ++ List.intercalate ['/'] postF) =
      '/' :: '/' :: (J ++ (upDirs postD.length ++
        List.intercalate ['/'] postF)) := by
    rw [hdJ]; simp
  rw [hinput, normalizePath_two_slashes]
  have hps : startOrSlash (some '/') = true := by
    simp [startOrSlash, isSlash]
  obtain ⟨q, hq, heq⟩ := normLoop_segsJoin dsegs hds hps
  rw [← hJ] at heq
  rw [heq (upDirs postD.length ++ List.intercalate ['/'] postF) ['/', '/']
    2 false]
  obtain ⟨q2, hq2, heq2⟩ := normLoop_popAll postD hpostDs hq
  set X := ['/', '/'] ++ segsJoin preD with hX
  have hXrev : (X ++ segsJoin postD).reverse = J.reverse ++ ['/', '/'] := by
    rw [hX, hJ, hDsplit, segsJoin_append]
    simp
  have hXfix : popToSlash X.reverse = X.reverse := by
    rw [hX]
    by_cases hpd : preD = []
    · subst hpd
      simp [segsJoin_nil]
      exact popToSlash_fix_slash (by simp [isSlash]) _
    · obtain ⟨Y, hY⟩ := segsJoin_ends_slash preD hpd
      rw [hY]
      simp only [List.reverse_append, List.reverse_cons, List.reverse_nil,
        List.nil_append, List.cons_append]
      exact popToSlash_fix_slash (by simp [isSlash]) _
  have h2 := heq2 X (List.intercalate ['/'] postF) 2 false
    (by rw [hX]; simp) hXfix
  rw [hXrev] at h2
  rw [h2]
  rw [normLoop_intercalate postF hFne hpostFs hq2]
  -- assemble the final path
  rw [hfI]
  have hIsplit : I = segsJoin preF ++ List.intercalate ['/'] postF := by
    rw [← hFtake, ← hFdrop]
    exact (List.take_append_drop m I).symm
  rw [hIsplit, hpre_eq]
  rw [hX]
  simp

/-! ### Normal forms are fixed points of `NormalizePath` (claim C4, part 1) -/

theorem replay_body (segs : List (List Char)) (tl : Option (List Char))
    (hBody : BodyOk segs tl) {prev : Option Char}
    (hp : startOrSlash prev = true) (outRev : List Char) (top : Nat)
    (isRel : Bool) :
    normLoop (bodyStr segs tl) prev outRev top isRel =
      (bodyStr segs tl).reverse ++ outRev := by
  obtain ⟨q, hq, heq⟩ := normLoop_segsJoin segs hBody.1 hp
  match tl with
  | none =>
    have hb : bodyStr segs none = segsJoin segs := by simp [bodyStr]
    rw [hb]
    have := heq [] outRev top isRel
    simpa [normLoop_nil] using this
  | some s =>
    have hb : bodyStr segs (some s) = segsJoin segs ++ s := by simp [bodyStr]
    rw [hb]
    rw [heq s outRev top isRel,
      normLoop_seg_end s (hBody.2 s rfl) hq ((segsJoin segs).reverse ++ outRev)
        top isRel]
    simp

theorem bodyStr_head (segs : List (List Char)) (tl : Option (List Char))
    (hBody : BodyOk segs tl) :
    bodyStr segs tl = [] ∨
      ∃ c rest, bodyStr segs tl = c :: rest ∧ isSlash c = false := by
  match segs with
  | s :: ss =>
    obtain ⟨hne, hns, _, _⟩ := (isSeg_iff s).mp (hBody.1 s (by simp))
    match s with
    | c :: cs =>
      right
      refine ⟨c, cs ++ '/' :: segsJoin ss ++ tl.getD [], ?_, hns c (by simp)⟩
      simp [bodyStr, segsJoin_cons]
  | [] =>
    match tl with
    | none => left; simp [bodyStr, segsJoin_nil]
    | some s =>
      obtain ⟨hne, hns, _, _⟩ := (isSeg_iff s).mp (hBody.2 s rfl)
      match s with
      | c :: cs =>
        right
        exact ⟨c, cs, by simp [bodyStr, segsJoin_nil], hns c (by simp)⟩

theorem normalizePath_rel (c : Char) (rest : List Char) (hc : ¬(c = '/')) :
    normalizePath (c :: rest) =
      (normLoop (c :: rest) none [] 0 true).reverse := by
  simp [normalizePath, hc]

theorem normalizePath_one_slash (c2 : Char) (rest2 : List Char)
    (hc2 : ¬(c2 = '/')) :
    normalizePath ('/' :: c2 :: rest2) =
      (normLoop (c2 :: rest2) (some '/') ['/'] 1 false).reverse := by
  simp [normalizePath, hc2]

theorem upDirs_head (j : Nat) (B : List Char) (hj : 1 ≤ j) :
    ∃ rest, upDirs j ++ B = '.' :: rest := by
  match j, hj with
  | j + 1, _ =>
    rw [upDirs_succ]
    exact ⟨'.' :: '/' :: (upDirs j ++ B), by simp⟩

theorem NF_fixed (q : List Char) (h : NF q) : normalizePath q = q := by
  rcases h with ⟨segs, tl, hBody, rfl⟩ | ⟨segs, tl, hBody, rfl⟩ |
    ⟨j, segs, tl, hBody, rfl⟩ | ⟨j, rfl⟩
  · -- system-absolute "/B"
    rcases bodyStr_head segs tl hBody with hnil | ⟨c, rest, hcons, hcslash⟩
    · rw [hnil]
      rfl
    · rw [hcons]
      have hc : ¬(c = '/') := by
        intro hcc
        subst hcc
        simp [isSlash] at hcslash
      rw [normalizePath_one_slash c rest hc, ← hcons,
        replay_body segs tl hBody (by simp [startOrSlash, isSlash]) ['/'] 1
          false]
      simp
  · -- source-absolute "//B"
    rw [normalizePath_two_slashes,
      replay_body segs tl hBody (by simp [startOrSlash, isSlash]) ['/', '/']
        2 false]
    simp
  · -- relative "../ × j ++ B"
    by_cases hj : j = 0
    · subst hj
      rw [upDirs_zero, List.nil_append]
      rcases bodyStr_head segs tl hBody with hnil | ⟨c, rest, hcons, hcslash⟩
      · rw [hnil]
        rfl
      · rw [hcons]
        have hc : ¬(c = '/') := by
          intro hcc
          subst hcc
          simp [isSlash] at hcslash
        rw [normalizePath_rel c rest hc, ← hcons]
        have hpn : startOrSlash none = true := rfl
        have hdots := normLoop_dots 0 hpn
        obtain ⟨q2, hq2, heq2⟩ := hdots
        rw [replay_body segs tl hBody hpn [] 0 true]
        simp
    · obtain ⟨restq, hq⟩ := upDirs_head j (bodyStr segs tl) (by omega)
      rw [hq]
      have hc : ¬('.' = '/') := by decide
      rw [normalizePath_rel '.' restq hc, ← hq]
      have hpn : startOrSlash none = true := rfl
      obtain ⟨q2, hq2, heq2⟩ := normLoop_dots j hpn
      have h0 : (upDirs 0).reverse = ([] : List Char) := rfl
      have h0l : (upDirs 0).length = 0 := rfl
      have := heq2 (bodyStr segs tl) 0
      rw [h0, h0l] at this
      rw [this]
      rw [replay_body segs tl hBody hq2 _ _ _]
      simp
  · -- pure up-reference "../ × j ++ .."
    by_cases hj : j = 0
    · subst hj
      rw [upDirs_zero, List.nil_append]
      rw [normalizePath_rel '.' ['.'] (by decide)]
      have hpn : startOrSlash none = true := rfl
      have := normLoop_dangle 0 hpn
      simp only [upDirs_zero, List.reverse_nil, List.length_nil] at this
      rw [this]
      simp
    · obtain ⟨restq, hq⟩ := upDirs_head j ['.', '.'] (by omega)
      rw [hq]
      rw [normalizePath_rel '.' restq (by decide), ← hq]
      have hpn : startOrSlash none = true := rfl
      obtain ⟨q2, hq2, heq2⟩ := normLoop_dots j hpn
      have h0 : (upDirs 0).reverse = ([] : List Char) := rfl
      have h0l : (upDirs 0).length = 0 := rfl
      have := heq2 ['.', '.'] 0
      rw [h0, h0l] at this
      simp only [Nat.zero_add] at this
      rw [this]
      rw [normLoop_dangle j hq2]
      simp

/-! ### Every output of the loop is in normal form (claim C4, part 2) -/

theorem AnchorOk_top_le (A : List Char) (top : Nat) (isRel : Bool)
    (h : AnchorOk A top isRel) : top ≤ A.length := by
  unfold AnchorOk at h
  cases isRel with
  | true =>
    simp only [if_pos rfl] at h
    rcases h with ⟨j, rfl, rfl⟩ | ⟨rfl, rfl⟩
    · exact le_rfl
    · simp
  | false =>
    simp only [Bool.false_eq_true, if_false] at h
    rcases h with ⟨rfl, rfl⟩ | ⟨rfl, rfl⟩ <;> simp

theorem anchor_parts_popfix (A : List Char) (top : Nat) (isRel : Bool)
    (h : AnchorOk A top isRel) (init : List (List Char))
    (hinit : ∀ s ∈ init, isSeg s = true) :
    popToSlash ((A ++ segsJoin init).reverse) = (A ++ segsJoin init).reverse := by
  by_cases hi : init = []
  · subst hi
    simp only [segsJoin_nil, List.append_nil]
    unfold AnchorOk at h
    cases isRel with
    | true =>
      simp only [if_pos rfl] at h
      rcases h with ⟨j, rfl, _⟩ | ⟨rfl, _⟩
      · match j with
        | 0 => rfl
        | j + 1 =>
          rw [upDirs_succ_append]
          simp only [List.reverse_append]
          exact popToSlash_fix_slash (by simp [isSlash]) _
      · exact popToSlash_fix_slash (by simp [isSlash]) _
    | false =>
      simp only [Bool.false_eq_true, if_false] at h
      rcases h with ⟨rfl, _⟩ | ⟨rfl, _⟩ <;>
        exact popToSlash_fix_slash (by simp [isSlash]) _
  · obtain ⟨Y, hY⟩ := segsJoin_ends_slash init hi
    rw [hY]
    simp only [List.reverse_append, List.reverse_cons, List.reverse_nil,
      List.nil_append, List.cons_append]
    exact popToSlash_fix_slash (by simp [isSlash]) _

theorem NF_parts (A : List Char) (segs : List (List Char)) (part : List Char)
    (top : Nat) (isRel : Bool) (ha : AnchorOk A top isRel)
    (hsegs : ∀ s ∈ segs, isSeg s = true)
    (hpart : part = [] ∨ isSeg part = true) :
    NF (A ++ segsJoin segs ++ part) := by
  have hBody : ∃ tl, BodyOk segs tl ∧ segsJoin segs ++ part = bodyStr segs tl := by
    rcases hpart with rfl | hp
    · exact ⟨none, ⟨hsegs, fun s hs => by simp at hs⟩, by simp [bodyStr]⟩
    · exact ⟨some part, ⟨hsegs, fun s hs => by
        simp at hs
        subst hs
        exact hp⟩, by simp [bodyStr]⟩
  obtain ⟨tl, hBody, hbs⟩ := hBody
  rw [List.append_assoc, hbs]
  unfold AnchorOk at ha
  cases isRel with
  | true =>
    simp only [if_pos rfl] at ha
    rcases ha with ⟨j, rfl, _⟩ | ⟨rfl, _⟩
    · exact Or.inr (Or.inr (Or.inl ⟨j, segs, tl, hBody, rfl⟩))
    · exact Or.inl ⟨segs, tl, hBody, by simp⟩
  | false =>
    simp only [Bool.false_eq_true, if_false] at ha
    rcases ha with ⟨rfl, _⟩ | ⟨rfl, _⟩
    · exact Or.inl ⟨segs, tl, hBody, by simp⟩
    · exact Or.inr (Or.inl ⟨segs, tl, hBody, by simp⟩)

theorem upState_top_abs (o : List Char) (top : Nat) (h : o.length = top)
    (hasSlash : Bool) : upState o top false hasSlash = (o, top) := by
  simp only [upState, h, lt_self_iff_false, if_false, eq_self_iff_true,
    if_true, Bool.false_eq_true]

theorem upState_top_rel_write (o : List Char) (top : Nat) (h : o.length = top)
    (hasSlash : Bool) :
    upState o top true hasSlash =
      (if hasSlash then '/' :: '.' :: '.' :: o else '.' :: '.' :: o,
        if hasSlash then top + 3 else top + 2) := by
  simp only [upState, h, lt_self_iff_false, if_false, eq_self_iff_true,
    if_true]
  cases hasSlash <;> simp [h] <;> omega

theorem append_singleton_eq_dot {part : List Char} {c : Char}
    (h : part ++ [c] = ['.']) : part = [] ∧ c = '.' := by
  match part with
  | [] => simpa using h
  | a :: as => simp at h
 
theorem append_singleton_eq_dotdot {part : List Char} {c : Char}
    (h : part ++ [c] = ['.', '.']) : part = ['.'] ∧ c = '.' := by
  match part with
  | [] => simp at h
  | [a] => simpa using h
  | a :: b :: bs => simp at h

theorem transOk_nil_part (rem : List Char) : TransOk [] rem :=
  ⟨fun h => by simp at h, fun h => by simp at h⟩

theorem normLoop_NF : ∀ (n : Nat), ∀ (rem : List Char) (prev : Option Char)
    (A : List Char) (segs : List (List Char)) (part : List Char) (top : Nat)
    (isRel : Bool), rem.length ≤ n →
    (∀ s ∈ segs, isSeg s = true) →
    (∀ c ∈ part, isSlash c = false) →
    AnchorOk A top isRel →
    (rem ≠ [] → (part = [] ↔ startOrSlash prev = true)) →
    TransOk part rem →
    (prev = none → A = [] ∧ segs = [] ∧ part = []) →
    NF ((normLoop rem prev ((A ++ (segsJoin segs ++ part)).reverse) top
      isRel).reverse) := by
  intro n
  induction n with
  | zero =>
    intro rem prev A segs part top isRel h1 hsegs hpart ha hsync htrans hnone
    have hrem : rem = [] := List.length_eq_zero.mp (Nat.le_zero.mp h1)
    subst hrem
    rw [normLoop_nil, List.reverse_reverse, ← List.append_assoc]
    refine NF_parts A segs part top isRel ha hsegs ?_
    match part with
    | [] => exact Or.inl rfl
    | pc :: pcs =>
      right
      refine (isSeg_iff _).mpr ⟨by simp, hpart, ?_, ?_⟩
      · intro hd
        obtain ⟨z, zs, hzz, _⟩ := htrans.1 hd
        simp at hzz
      · intro hd
        obtain ⟨w, ws, hww, _⟩ := htrans.2 hd
        simp at hww
  | succ n ih =>
    intro rem prev A segs part top isRel h1 hsegs hpart ha hsync htrans hnone
    match rem with
    | [] =>
      rw [normLoop_nil, List.reverse_reverse, ← List.append_assoc]
      refine NF_parts A segs part top isRel ha hsegs ?_
      match part with
      | [] => exact Or.inl rfl
      | pc :: pcs =>
        right
        refine (isSeg_iff _).mpr ⟨by simp, hpart, ?_, ?_⟩
        · intro hd
          obtain ⟨z, zs, hzz, _⟩ := htrans.1 hd
          simp at hzz
        · intro hd
          obtain ⟨w, ws, hww, _⟩ := htrans.2 hd
          simp at hww
    | c :: rest =>
      have hsync' : part = [] ↔ startOrSlash prev = true := hsync (by simp)
      have h1r : rest.length ≤ n := by
        simp only [List.length_cons] at h1
        omega
      by_cases hc : c = '.'
      · subst hc
        by_cases hp : startOrSlash prev
        · -- the dot is at a segment boundary
          have hpeq : part = [] := hsync'.mpr hp
          subst hpeq
          match rest with
          | [] =>
            -- trailing "." : DIRECTORY_CUR, input exhausted
            rw [normLoop_dot_cur_end hp, List.reverse_reverse,
              ← List.append_assoc]
            exact NF_parts A segs [] top isRel ha hsegs (Or.inl rfl)
          | z :: zs =>
            by_cases hz : isSlash z
            · -- "./" : DIRECTORY_CUR
              rw [normLoop_dot_cur hp hz]
              exact ih zs (some z) A segs [] top isRel (by
                  simp only [List.length_cons] at h1 ⊢; omega)
                hsegs hpart ha
                (fun _ => by simp [startOrSlash, hz])
                (transOk_nil_part zs) (fun h => by simp at h)
            · by_cases hz2 : z = '.'
              · subst hz2
                match zs with
                | [] =>
                  -- trailing ".." : DIRECTORY_UP, input exhausted
                  rw [normLoop_dot_up_end hp]
                  rcases List.eq_nil_or_concat segs with rfl | ⟨init, slast, rfl⟩
                  · -- no segment to pop
                    simp only [segsJoin_nil, List.nil_append, List.append_nil]
                    unfold AnchorOk at ha
                    cases isRel with
                    | true =>
                      simp only [if_pos rfl] at ha
                      rcases ha with ⟨j, rfl, htopj⟩ | ⟨rfl, htop0⟩
                      · rw [upState_top_rel_write _ _ (by simp [htopj]) false]
                        simp only [if_neg Bool.false_ne_true]
                        have : ('.' :: '.' :: (upDirs j).reverse).reverse =
                            upDirs j ++ ['.', '.'] := by simp
                        rw [this]
                        exact Or.inr (Or.inr (Or.inr ⟨j, rfl⟩))
                      · subst htop0
                        have hcalc : (upState (['/'] : List Char).reverse 0
                            true false).1.reverse = upDirs 0 ++ ['.', '.'] :=
                          rfl
                        rw [hcalc]
                        exact Or.inr (Or.inr (Or.inr ⟨0, rfl⟩))
                    | false =>
                      have htopA : top = A.length := by
                        simp only [Bool.false_eq_true, if_false] at ha
                        rcases ha with ⟨rfl, rfl⟩ | ⟨rfl, rfl⟩ <;> simp
                      rw [upState_top_abs _ _ (by simp [htopA]) false,
                        List.reverse_reverse]
                      have := NF_parts A [] [] top false ha (by simp)
                        (Or.inl rfl)
                      simpa [segsJoin_nil] using this
                  · -- pop the last segment
                    simp only [List.concat_eq_append] at hsegs ⊢
                    obtain ⟨hne, hns, _, _⟩ :=
                      (isSeg_iff slast).mp (hsegs slast (by simp))
                    have hout : (A ++ (segsJoin (init ++ [slast]) ++
                        [])).reverse =
                        '/' :: (slast.reverse ++
                          (A ++ segsJoin init).reverse) := by
                      rw [segsJoin_concat]
                      simp
                    rw [hout, upState_pop slast ((A ++ segsJoin init).reverse)
                      top isRel false hne hns
                      (by
                        simp only [List.length_reverse, List.length_append]
                        have := AnchorOk_top_le A top isRel ha
                        omega)
                      (anchor_parts_popfix A top isRel ha init
                        (fun s hs => hsegs s (by simp [hs])))]
                    rw [List.reverse_reverse]
                    have := NF_parts A init [] top isRel ha
                      (fun s hs => hsegs s (by simp [hs])) (Or.inl rfl)
                    simpa using this
                | w :: ws =>
                  by_cases hw : isSlash w
                  · -- "../" : DIRECTORY_UP
                    rw [normLoop_dot_up hp hw]
                    rcases List.eq_nil_or_concat segs with rfl |
                      ⟨init, slast, rfl⟩
                    · simp only [segsJoin_nil, List.nil_append,
                        List.append_nil]
                      unfold AnchorOk at ha
                      cases isRel with
                      | true =>
                        simp only [if_pos rfl] at ha
                        rcases ha with ⟨j, rfl, htopj⟩ | ⟨rfl, htop0⟩
                        · rw [upState_top_rel_write _ _ (by simp [htopj]) true]
                          simp only [if_pos rfl]
                          have hshape : '/' :: '.' :: '.' ::
                              (upDirs j).reverse =
                              (upDirs (j + 1) ++ (segsJoin [] ++ [])).reverse
                              := by
                            rw [upDirs_succ_append]
                            simp [segsJoin_nil]
                          rw [hshape]
                          have htop' : top + 3 = (upDirs (j + 1)).length := by
                            rw [upDirs_length] at htopj ⊢
                            omega
                          rw [htop']
                          exact ih ws (some w) (upDirs (j + 1)) [] []
                            (upDirs (j + 1)).length true
                            (by simp only [List.length_cons] at h1 ⊢; omega)
                            (by simp) (by simp)
                            (by
                              unfold AnchorOk
                              simp only [if_pos rfl]
                              exact Or.inl ⟨j + 1, rfl, by simp⟩)
                            (fun _ => by simp [startOrSlash, hw])
                            (transOk_nil_part ws) (fun h => by simp at h)
                        · subst htop0
                          have hcalc : upState (['/'] : List Char).reverse 0
                              true true = (['/', '.', '.'], 3) := rfl
                          rw [hcalc]
                          have hshape : (['/', '.', '.'] : List Char) =
                              (upDirs 1 ++ (segsJoin [] ++ [])).reverse := rfl
                          rw [hshape]
                          have h3 : (3 : Nat) = (upDirs 1).length := rfl
                          rw [h3]
                          exact ih ws (some w) (upDirs 1) [] []
                            (upDirs 1).length true
                            (by simp only [List.length_cons] at h1 ⊢; omega)
                            (by simp) (by simp)
                            (by
                              unfold AnchorOk
                              simp only [if_pos rfl]
                              exact Or.inl ⟨1, rfl, by simp⟩)
                            (fun _ => by simp [startOrSlash, hw])
                            (transOk_nil_part ws) (fun h => by simp at h)
                      | false =>
                        have htopA : top = A.length := by
                          simp only [Bool.false_eq_true, if_false] at ha
                          rcases ha with ⟨rfl, rfl⟩ | ⟨rfl, rfl⟩ <;> simp
                        rw [upState_top_abs _ _ (by simp [htopA]) true]
                        have hshape : A.reverse =
                            (A ++ (segsJoin [] ++ [])).reverse := by
                          simp [segsJoin_nil]
                        rw [hshape]
                        exact ih ws (some w) A [] [] top false
                          (by simp only [List.length_cons] at h1 ⊢; omega)
                          (by simp) (by simp) ha
                          (fun _ => by simp [startOrSlash, hw])
                          (transOk_nil_part ws) (fun h => by simp at h)
                    · simp only [List.concat_eq_append] at hsegs ⊢
                      obtain ⟨hne, hns, _, _⟩ :=
                        (isSeg_iff slast).mp (hsegs slast (by simp))
                      have hout : (A ++ (segsJoin (init ++ [slast]) ++
                          [])).reverse =
                          '/' :: (slast.reverse ++
                            (A ++ segsJoin init).reverse) := by
                        rw [segsJoin_concat]
                        simp
                      rw [hout, upState_pop slast
                        ((A ++ segsJoin init).reverse) top isRel true hne hns
                        (by
                          simp only [List.length_reverse, List.length_append]
                          have := AnchorOk_top_le A top isRel ha
                          omega)
                        (anchor_parts_popfix A top isRel ha init
                          (fun s hs => hsegs s (by simp [hs])))]
                      have hshape : (A ++ segsJoin init).reverse =
                          (A ++ (segsJoin init ++ [])).reverse := by simp
                      rw [hshape]
                      exact ih ws (some w) A init [] top isRel
                        (by simp only [List.length_cons] at h1 ⊢; omega)
                        (fun s hs => hsegs s (by simp [hs])) (by simp) ha
                        (fun _ => by simp [startOrSlash, hw])
                        (transOk_nil_part ws) (fun h => by simp at h)
                  · -- "..x" : NOT_A_DIRECTORY, copy the first dot
                    rw [normLoop_dot_notdir_two hp (Bool.not_eq_true _ ▸ hw)]
                    have hout : '.' :: (A ++ (segsJoin segs ++ [])).reverse =
                        (A ++ (segsJoin segs ++ ['.'])).reverse := by simp
                    rw [hout]
                    exact ih ('.' :: w :: ws) (some '.') A segs ['.'] top isRel
                      (by simp only [List.length_cons] at h1 ⊢; omega)
                      hsegs
                      (by intro x hx; simp at hx; subst hx; exact isSlash_dot)
                      ha
                      (fun _ => by simp [startOrSlash, isSlash_dot])
                      ⟨fun _ => ⟨'.', w :: ws, rfl, isSlash_dot,
                        fun _ => ⟨w, ws, rfl, Bool.not_eq_true _ ▸ hw⟩⟩,
                        fun h => by simp at h⟩
                      (fun h => by simp at h)
              · -- ".x" : NOT_A_DIRECTORY, copy the dot
                rw [normLoop_dot_notdir hp (Bool.not_eq_true _ ▸ hz) hz2]
                have hout : '.' :: (A ++ (segsJoin segs ++ [])).reverse =
                    (A ++ (segsJoin segs ++ ['.'])).reverse := by simp
                rw [hout]
                exact ih (z :: zs) (some '.') A segs ['.'] top isRel
                  (by simp only [List.length_cons] at h1 ⊢; omega)
                  hsegs
                  (by intro x hx; simp at hx; subst hx; exact isSlash_dot)
                  ha
                  (fun _ => by simp [startOrSlash, isSlash_dot])
                  ⟨fun _ => ⟨z, zs, rfl, Bool.not_eq_true _ ▸ hz,
                    fun hzz => absurd hzz hz2⟩,
                    fun h => by simp at h⟩
                  (fun h => by simp at h)
        · -- dot copied literally
          rw [normLoop_dot_copy (Bool.not_eq_true _ ▸ hp)]
          have hpne : part ≠ [] := fun hp0 => hp (hsync'.mp hp0)
          have hout : '.' :: (A ++ (segsJoin segs ++ part)).reverse =
              (A ++ (segsJoin segs ++ (part ++ ['.']))).reverse := by simp
          rw [hout]
          refine ih rest (some '.') A segs (part ++ ['.']) top isRel h1r hsegs
            ?_ ha ?_ ?_ (fun h => by simp at h)
          · intro x hx
            simp only [List.mem_append, List.mem_singleton] at hx
            rcases hx with hx | hx
            · exact hpart x hx
            · subst hx; exact isSlash_dot
          · intro _
            simp [startOrSlash, isSlash_dot]
          · constructor
            · intro hp1
              exact absurd (append_singleton_eq_dot hp1).1 hpne
            · intro hp2
              have hpdot : part = ['.'] := (append_singleton_eq_dotdot hp2).1
              obtain ⟨z, zs, hzz, hzs, hinner⟩ := htrans.1 hpdot
              have hzdot : z = '.' := by
                have : z = '.' ∧ zs = rest := by
                  constructor <;> [exact (List.cons.injEq _ _ _ _ ▸ hzz).1.symm;
                    exact (List.cons.injEq _ _ _ _ ▸ hzz).2.symm]
                exact this.1
              obtain ⟨w, ws, hww, hws⟩ := hinner hzdot
              have hzr : zs = rest := (List.cons.injEq _ _ _ _ ▸ hzz).2.symm
              exact ⟨w, ws, by rw [← hzr, hww], hws⟩
      · by_cases hs : isSlash c
        · by_cases hac : afterSlash prev
          · -- two slashes in a row, skip
            rw [normLoop_slash_skip hs hac]
            have hpeq : part = [] := hsync'.mpr (by
              cases prev with
              | none => simp [afterSlash] at hac
              | some p => simpa [startOrSlash, afterSlash] using hac)
            subst hpeq
            exact ih rest (some c) A segs [] top isRel h1r hsegs hpart ha
              (fun _ => by simp [startOrSlash, hs])
              (transOk_nil_part rest) (fun h => by simp at h)
          · -- write a slash
            rw [normLoop_slash_write hs (Bool.not_eq_true _ ▸ hac)]
            cases prev with
            | none =>
              obtain ⟨hA, hsegs0, hpart0⟩ := hnone rfl
              subst hA
              subst hsegs0
              subst hpart0
              have hisrel : isRel = true := by
                unfold AnchorOk at ha
                cases isRel with
                | true => rfl
                | false =>
                  simp only [Bool.false_eq_true, if_false] at ha
                  rcases ha with ⟨hAe, _⟩ | ⟨hAe, _⟩ <;> simp at hAe
              subst hisrel
              have htop0 : top = 0 := by
                unfold AnchorOk at ha
                simp only [if_pos rfl] at ha
                rcases ha with ⟨j, hAe, htopj⟩ | ⟨hAe, _⟩
                · simpa using htopj
                · simp at hAe
              subst htop0
              have hout : ('/' :: ([] ++ (segsJoin [] ++ [])).reverse) =
                  (['/'] ++ (segsJoin [] ++ [])).reverse := by
                simp [segsJoin_nil]
              rw [hout]
              exact ih rest (some c) ['/'] [] [] 0 true h1r (by simp)
                (by simp)
                (by unfold AnchorOk; simp)
                (fun _ => by simp [startOrSlash, hs])
                (transOk_nil_part rest) (fun h => by simp at h)
            | some p =>
              have hpns : isSlash p = false := by
                simpa [afterSlash] using hac
              have hpne : part ≠ [] := fun hp0 => by
                have := hsync'.mp hp0
                simp [startOrSlash, hpns] at this
              have hpartSeg : isSeg part = true := by
                refine (isSeg_iff part).mpr ⟨hpne, hpart, ?_, ?_⟩
                · intro hd
                  obtain ⟨z, zs, hzz, hzs, _⟩ := htrans.1 hd
                  have : z = c := (List.cons.injEq _ _ _ _ ▸ hzz).1.symm
                  rw [this] at hzs
                  rw [hs] at hzs
                  exact Bool.true_eq_false.mp hzs
                · intro hd
                  obtain ⟨w, ws, hww, hws⟩ := htrans.2 hd
                  have : w = c := (List.cons.injEq _ _ _ _ ▸ hww).1.symm
                  rw [this] at hws
                  rw [hs] at hws
                  exact Bool.true_eq_false.mp hws
              have hout : '/' :: (A ++ (segsJoin segs ++ part)).reverse =
                  (A ++ (segsJoin (segs ++ [part]) ++ [])).reverse := by
                rw [segsJoin_concat]
                simp
              rw [hout]
              exact ih rest (some c) A (segs ++ [part]) [] top isRel h1r
                (by
                  intro x hx
                  simp only [List.mem_append, List.mem_singleton] at hx
                  rcases hx with hx | hx
                  · exact hsegs x hx
                  · subst hx; exact hpartSeg)
                (by simp) ha
                (fun _ => by simp [startOrSlash, hs])
                (transOk_nil_part rest) (fun h => by simp at h)
        · -- ordinary character, copy
          rw [normLoop_copy hc (Bool.not_eq_true _ ▸ hs)]
          have hout : c :: (A ++ (segsJoin segs ++ part)).reverse =
              (A ++ (segsJoin segs ++ (part ++ [c]))).reverse := by simp
          rw [hout]
          refine ih rest (some c) A segs (part ++ [c]) top isRel h1r hsegs
            ?_ ha ?_ ?_ (fun h => by simp at h)
          · intro x hx
            simp only [List.mem_append, List.mem_singleton] at hx
            rcases hx with hx | hx
            · exact hpart x hx
            · subst hx; exact Bool.not_eq_true _ ▸ hs
          · intro _
            simp [startOrSlash, hs]
          · constructor
            · intro hp1
              exact absurd (append_singleton_eq_dot hp1).2 hc
            · intro hp2
              exact absurd (append_singleton_eq_dotdot hp2).2 hc

theorem normalizePath_NF (p : List Char) : NF (normalizePath p) := by
  match p with
  | [] =>
    show NF []
    exact Or.inr (Or.inr (Or.inl ⟨0, [], none, ⟨by simp, by simp⟩, by
      simp [upDirs_zero, bodyStr, segsJoin_nil]⟩))
  | c :: rest =>
    by_cases hc : c = '/'
    · subst hc
      match rest with
      | [] =>
        show NF ['/']
        exact Or.inl ⟨[], none, ⟨by simp, by simp⟩, by
          simp [bodyStr, segsJoin_nil]⟩
      | c2 :: rest2 =>
        by_cases hc2 : c2 = '/'
        · subst hc2
          rw [normalizePath_two_slashes]
          have hout : (['/', '/'] : List Char) =
              (['/', '/'] ++ (segsJoin [] ++ [])).reverse := by
            simp [segsJoin_nil]
          rw [hout]
          exact normLoop_NF rest2.length rest2 (some '/') ['/', '/'] [] [] 2
            false le_rfl (by simp) (by simp)
            (by unfold AnchorOk; simp)
            (fun _ => by simp [startOrSlash, isSlash])
            (transOk_nil_part rest2) (fun h => by simp at h)
        · rw [normalizePath_one_slash c2 rest2 hc2]
          have hout : (['/'] : List Char) =
              (['/'] ++ (segsJoin [] ++ [])).reverse := by
            simp [segsJoin_nil]
          rw [hout]
          exact normLoop_NF (c2 :: rest2).length (c2 :: rest2) (some '/')
            ['/'] [] [] 1 false le_rfl (by simp) (by simp)
            (by unfold AnchorOk; simp)
            (fun _ => by simp [startOrSlash, isSlash])
            (transOk_nil_part _) (fun h => by simp at h)
    · rw [normalizePath_rel c rest hc]
      have hout : ([] : List Char) =
          ([] ++ (segsJoin [] ++ [])).reverse := by
        simp [segsJoin_nil]
      rw [hout]
      exact normLoop_NF (c :: rest).length (c :: rest) none [] [] [] 0 true
        le_rfl (by simp) (by simp)
        (by
          unfold AnchorOk
          simp only [if_pos rfl]
          exact Or.inl ⟨0, by simp [upDirs_zero], by simp⟩)
        (fun _ => by simp [startOrSlash])
        (transOk_nil_part _) (fun _ => ⟨rfl, rfl, rfl⟩)

theorem normalizePath_idem (p : List Char) :
    normalizePath (normalizePath p) = normalizePath p :=
  NF_fixed (normalizePath p) (normalizePath_NF p)

/-! ### Dependency classification (claims C1 and C8) -/

theorem classifyDependency_nonLinkable (objf : Nat → List Char →
    SourceFileType → List Char) (env : Nat → GnTarget) (current : GnTarget)
    (depId : Nat) (b : DepBuckets)
    (h : classification current (env depId) = DepClass.nonLinkable) :
    classifyDependency objf env current depId b =
      { b with non_linkable_deps := b.non_linkable_deps ++ [depId] } := by
  unfold classifyDependency
  unfold classification at h
  by_cases h1 : (env depId).output_type = OutputType.sourceSet
  · by_cases h2 : current.output_type = OutputType.sourceSet
    · simp [h1, h2]
    · simp [h1, h2] at h
  · rw [if_neg h1] at h ⊢
    by_cases h3 : (current.output_type = OutputType.executable ∨
        current.output_type = OutputType.sharedLibrary : Bool) ∧
        isLinkable (env depId) = true
    · rw [if_pos h3] at h
      simp at h
    · rw [if_neg h3]

theorem classifyDependency_linkable (objf : Nat → List Char →
    SourceFileType → List Char) (env : Nat → GnTarget) (current : GnTarget)
    (depId : Nat) (b : DepBuckets)
    (h : classification current (env depId) = DepClass.linkable) :
    classifyDependency objf env current depId b =
      { b with linkable_deps := b.linkable_deps ++ [depId] } := by
  unfold classifyDependency
  unfold classification at h
  by_cases h1 : (env depId).output_type = OutputType.sourceSet
  · rw [if_pos h1] at h
    by_cases h2 : current.output_type = OutputType.sourceSet <;>
      simp [h2] at h
  · rw [if_neg h1] at h ⊢
    by_cases h3 : (current.output_type = OutputType.executable ∨
        current.output_type = OutputType.sharedLibrary : Bool) ∧
        isLinkable (env depId) = true
    · rw [if_pos h3]
    · rw [if_neg h3] at h
      simp at h

theorem classifyDependency_expanded (objf : Nat → List Char →
    SourceFileType → List Char) (env : Nat → GnTarget) (current : GnTarget)
    (depId : Nat) (b : DepBuckets)
    (h : classification current (env depId) = DepClass.sourceSetExpanded) :
    classifyDependency objf env current depId b =
      { b with extra_object_files := addSourceSetObjectFiles objf depId (env depId) b.extra_object_files } := by
  unfold classifyDependency
  unfold classification at h
  by_cases h1 : (env depId).output_type = OutputType.sourceSet
  · rw [if_pos h1] at h ⊢
    by_cases h2 : current.output_type = OutputType.sourceSet
    · simp [h2] at h
    · rw [if_neg h2]
  · rw [if_neg h1] at h
    by_cases h3 : (current.output_type = OutputType.executable ∨
        current.output_type = OutputType.sharedLibrary : Bool) ∧
        isLinkable (env depId) = true
    · rw [if_pos h3] at h
      simp at h
    · rw [if_neg h3] at h
      simp at h

/-- The bucket view of a fold of `ClassifyDependency` over a list of deps. -/
theorem classify_foldl (objf : Nat → List Char → SourceFileType → List Char)
    (env : Nat → GnTarget) (t : GnTarget) :
    ∀ (l : List Nat) (b : DepBuckets),
    l.foldl (fun b d => classifyDependency objf env t d b) b =
      { extra_object_files := l.foldl
          (fun acc d =>
            if classification t (env d) = DepClass.sourceSetExpanded then
              addSourceSetObjectFiles objf d (env d) acc
            else acc)
          b.extra_object_files,
        linkable_deps := b.linkable_deps ++ l.filter
          (fun d => classification t (env d) = DepClass.linkable),
        non_linkable_deps := b.non_linkable_deps ++ l.filter
          (fun d => classification t (env d) = DepClass.nonLinkable) } := by
  intro l
  induction l with
  | nil => intro b; simp
  | cons d rest ih =>
    intro b
    simp only [List.foldl_cons, List.filter_cons]
    match hcl : classification t (env d) with
    | DepClass.nonLinkable =>
      rw [classifyDependency_nonLinkable objf env t d b hcl, ih]
      simp [hcl]
    | DepClass.linkable =>
      rw [classifyDependency_linkable objf env t d b hcl, ih]
      simp [hcl]
    | DepClass.sourceSetExpanded =>
      rw [classifyDependency_expanded objf env t d b hcl, ih]
      simp [hcl]

theorem foldl_skip_filter (env : Nat → GnTarget) (t : GnTarget)
    (objf : Nat → List Char → SourceFileType → List Char)
    (inh : List Nat) :
    ∀ (l : List Nat) (b : DepBuckets),
    l.foldl (fun b d => if d ∈ inh then b
      else classifyDependency objf env t d b) b =
      (l.filter (fun d => !(d ∈ inh : Bool))).foldl
        (fun b d => classifyDependency objf env t d b) b := by
  intro l
  induction l with
  | nil => intro b; simp
  | cons d rest ih =>
    intro b
    simp only [List.foldl_cons, List.filter_cons]
    by_cases hd : d ∈ inh
    · simpa [hd] using ih b
    · simpa [hd] using ih (classifyDependency objf env t d b)

/-- `GetDeps`, expressed through the per-dependency classification. -/
theorem getDeps_spec (objf : Nat → List Char → SourceFileType → List Char)
    (env : Nat → GnTarget) (t : GnTarget) :
    getDeps objf env t =
      { extra_object_files := (processedDeps t).foldl
          (fun acc d =>
            if classification t (env d) = DepClass.sourceSetExpanded then
              addSourceSetObjectFiles objf d (env d) acc
            else acc)
          [],
        linkable_deps := (processedDeps t).filter
          (fun d => classification t (env d) = DepClass.linkable),
        non_linkable_deps := (processedDeps t).filter
          (fun d => classification t (env d) = DepClass.nonLinkable) ++
          t.datadeps } := by
  unfold getDeps processedDeps
  dsimp only
  rw [foldl_skip_filter env t objf t.inherited_libraries t.deps ⟨[], [], []⟩]
  rw [classify_foldl objf env t]
  rw [classify_foldl objf env t]
  simp [List.filter_append, List.foldl_append, List.append_assoc]

theorem insertOutputFile_mem (s : List (List Char)) (y x : List Char) :
    x ∈ insertOutputFile s y ↔ x ∈ s ∨ x = y := by
  unfold insertOutputFile
  by_cases h : y ∈ s
  · rw [if_pos h]
    constructor
    · exact Or.inl
    · rintro (hx | rfl)
      · exact hx
      · exact h
  · rw [if_neg h]
    simp

theorem objFold_mem (objf : Nat → List Char → SourceFileType → List Char)
    (depId : Nat) (os : TargetOS) :
    ∀ (srcs : List (List Char)) (acc : List (List Char)) (x : List Char),
    (x ∈ srcs.foldl
      (fun acc src =>
        let input_file_type := getSourceFileType src os
        if input_file_type ≠ SourceFileType.sourceUnknown ∧
            input_file_type ≠ SourceFileType.sourceH then
          insertOutputFile acc (objf depId src input_file_type)
        else acc)
      acc ↔
    x ∈ acc ∨ ∃ src ∈ srcs,
      (getSourceFileType src os ≠ SourceFileType.sourceUnknown ∧
       getSourceFileType src os ≠ SourceFileType.sourceH) ∧
      x = objf depId src (getSourceFileType src os)) := by
  intro srcs
  induction srcs with
  | nil =>
    intro acc x
    simp
  | cons s rest ih =>
    intro acc x
    simp only [List.foldl_cons]
    by_cases hc : getSourceFileType s os ≠ SourceFileType.sourceUnknown ∧
        getSourceFileType s os ≠ SourceFileType.sourceH
    · rw [if_pos hc]
      rw [ih, insertOutputFile_mem]
      constructor
      · rintro ((hx | rfl) | ⟨src, hsrc, hcc, rfl⟩)
        · exact Or.inl hx
        · exact Or.inr ⟨s, List.mem_cons_self s rest, hc, rfl⟩
        · exact Or.inr ⟨src, List.mem_cons_of_mem s hsrc, hcc, rfl⟩
      · rintro (hx | ⟨src, hsrc, hcc, rfl⟩)
        · exact Or.inl (Or.inl hx)
        · rcases List.mem_cons.mp hsrc with rfl | hsrc
          · exact Or.inl (Or.inr rfl)
          · exact Or.inr ⟨src, hsrc, hcc, rfl⟩
    · rw [if_neg hc]
      rw [ih]
      constructor
      · rintro (hx | ⟨src, hsrc, hcc, rfl⟩)
        · exact Or.inl hx
        · exact Or.inr ⟨src, List.mem_cons_of_mem s hsrc, hcc, rfl⟩
      · rintro (hx | ⟨src, hsrc, hcc, rfl⟩)
        · exact Or.inl hx
        · rcases List.mem_cons.mp hsrc with rfl | hsrc
          · exact absurd hcc hc
          · exact Or.inr ⟨src, hsrc, hcc, rfl⟩

theorem addSourceSetObjectFiles_mem
    (objf : Nat → List Char → SourceFileType → List Char) (depId : Nat)
    (dep : GnTarget) (acc : List (List Char)) (x : List Char) :
    (x ∈ addSourceSetObjectFiles objf depId dep acc ↔
    x ∈ acc ∨ ∃ src ∈ dep.sources,
      (getSourceFileType src dep.os ≠ SourceFileType.sourceUnknown ∧
       getSourceFileType src dep.os ≠ SourceFileType.sourceH) ∧
      x = objf depId src (getSourceFileType src dep.os)) :=
  objFold_mem objf depId dep.os dep.sources acc x

theorem extraFold_mem (objf : Nat → List Char → SourceFileType → List Char)
    (env : Nat → GnTarget) (t : GnTarget) :
    ∀ (l : List Nat) (acc : List (List Char)) (x : List Char),
    (x ∈ l.foldl
      (fun acc d =>
        if classification t (env d) = DepClass.sourceSetExpanded then
          addSourceSetObjectFiles objf d (env d) acc
        else acc)
      acc ↔
    x ∈ acc ∨ ∃ d ∈ l,
      classification t (env d) = DepClass.sourceSetExpanded ∧
      ∃ src ∈ (env d).sources,
        (getSourceFileType src (env d).os ≠ SourceFileType.sourceUnknown ∧
         getSourceFileType src (env d).os ≠ SourceFileType.sourceH) ∧
        x = objf d src (getSourceFileType src (env d).os)) := by
  intro l
  induction l with
  | nil =>
    intro acc x
    simp
  | cons d rest ih =>
    intro acc x
    simp only [List.foldl_cons]
    by_cases hc : classification t (env d) = DepClass.sourceSetExpanded
    · rw [if_pos hc, ih, addSourceSetObjectFiles_mem]
      constructor
      · rintro ((hx | ⟨src, hsrc, hcc, rfl⟩) | ⟨d', hd', hc', rest'⟩)
        · exact Or.inl hx
        · exact Or.inr ⟨d, List.mem_cons_self d rest, hc, src, hsrc, hcc, rfl⟩
        · exact Or.inr ⟨d', List.mem_cons_of_mem d hd', hc', rest'⟩
      · rintro (hx | ⟨d', hd', hc', rest'⟩)
        · exact Or.inl (Or.inl hx)
        · rcases List.mem_cons.mp hd' with rfl | hd'
          · exact Or.inl (Or.inr rest')
          · exact Or.inr ⟨d', hd', hc', rest'⟩
    · rw [if_neg hc, ih]
      constructor
      · rintro (hx | ⟨d', hd', hc', rest'⟩)
        · exact Or.inl hx
        · exact Or.inr ⟨d', List.mem_cons_of_mem d hd', hc', rest'⟩
      · rintro (hx | ⟨d', hd', hc', rest'⟩)
        · exact Or.inl hx
        · rcases List.mem_cons.mp hd' with rfl | hd'
          · exact absurd hc' hc
          · exact Or.inr ⟨d', hd', hc', rest'⟩

/-- Membership in the extra-object-file bucket of `GetDeps`. -/
theorem getDeps_extra_mem
    (objf : Nat → List Char → SourceFileType → List Char)
    (env : Nat → GnTarget) (t : GnTarget) (x : List Char) :
    (x ∈ (getDeps objf env t).extra_object_files ↔
    ∃ d ∈ processedDeps t,
      classification t (env d) = DepClass.sourceSetExpanded ∧
      ∃ src ∈ (env d).sources,
        (getSourceFileType src (env d).os ≠ SourceFileType.sourceUnknown ∧
         getSourceFileType src (env d).os ≠ SourceFileType.sourceH) ∧
        x = objf d src (getSourceFileType src (env d).os)) := by
  rw [getDeps_spec objf env t]
  rw [extraFold_mem objf env t (processedDeps t) [] x]
  simp

/-- A source-set target never expands a dependency. -/
theorem classification_ss (t dep : GnTarget)
    (h : t.output_type = OutputType.sourceSet) :
    classification t dep ≠ DepClass.sourceSetExpanded := by
  unfold classification
  by_cases h1 : dep.output_type = OutputType.sourceSet
  · rw [if_pos h1, if_pos h]
    intro hcon
    simp at hcon
  · rw [if_neg h1]
    by_cases h3 : (t.output_type = OutputType.executable ∨
        t.output_type = OutputType.sharedLibrary : Bool) ∧
        isLinkable dep = true
    · rw [if_pos h3]
      intro hcon
      simp at hcon
    · rw [if_neg h3]
      intro hcon
      simp at hcon

/-- The extra-object-file bucket is empty for a source-set target. -/
theorem getDeps_extra_ss (objf : Nat → List Char → SourceFileType → List Char)
    (env : Nat → GnTarget) (t : GnTarget)
    (h : t.output_type = OutputType.sourceSet) :
    (getDeps objf env t).extra_object_files = [] := by
  rw [List.eq_nil_iff_forall_not_mem]
  intro x hx
  rw [getDeps_extra_mem objf env t x] at hx
  obtain ⟨d, _, hc, _⟩ := hx
  exact classification_ss t (env d) h hc

theorem segsJoin_concat_seg (segs : List (List Char)) (t : List Char) :
    segsJoin segs ++ t = List.intercalate ['/'] (segs ++ [t]) := by
  induction segs with
  | nil => simp [segsJoin_nil, intercalate_singleton]
  | cons s ss ih =>
    rw [segsJoin_cons]
    cases hss : ss ++ [t] with
    | nil => cases ss <;> simp at hss
    | cons y l =>
      rw [List.cons_append, hss, intercalate_cons_cons, ← hss, ← ih]
      simp

theorem NF_source_file (f : List Char) (hNF : NF f)
    (hfa : f.take 2 = ['/', '/']) (hff : f.getLast? ≠ some '/') :
    ∃ fsegs, fsegs ≠ [] ∧ (∀ s ∈ fsegs, isSeg s = true) ∧
      f = mkSourceFile fsegs := by
  have hsplit : f = '/' :: '/' :: f.drop 2 := by
    conv_lhs => rw [← List.take_append_drop 2 f]
    rw [hfa]
    rfl
  rcases hNF with ⟨segs, tl, hBody, hq⟩ | ⟨segs, tl, hBody, hq⟩ |
    ⟨j, segs, tl, hBody, hq⟩ | ⟨j, hq⟩
  · exfalso
    have heq : ('/' : Char) :: bodyStr segs tl = '/' :: '/' :: f.drop 2 :=
      hq.symm.trans hsplit
    have hB : bodyStr segs tl = '/' :: f.drop 2 :=
      (List.cons_eq_cons.mp heq).2
    rcases bodyStr_head segs tl hBody with hB0 | ⟨c, rest, hBc, hcs⟩
    · rw [hB0] at hB
      exact List.noConfusion hB
    · rw [hBc] at hB
      have hc : c = '/' := (List.cons_eq_cons.mp hB).1
      rw [hc] at hcs
      exact absurd hcs (by decide)
  · cases htl : tl with
    | none =>
      exfalso
      rw [htl] at hq
      have hq2 : f = '/' :: '/' :: segsJoin segs := by
        rw [hq]
        simp [bodyStr]
      cases hsegs0 : segs with
      | nil =>
        rw [hsegs0, segsJoin_nil] at hq2
        rw [hq2] at hff
        exact hff rfl
      | cons s ss =>
        obtain ⟨Y, hY⟩ := segsJoin_ends_slash segs (by rw [hsegs0]; simp)
        rw [hY] at hq2
        rw [hq2] at hff
        apply hff
        rw [show ('/' :: '/' :: (Y ++ ['/'])) = ('/' :: '/' :: Y) ++ ['/']
          by simp]
        exact List.getLast?_concat _
    | some t =>
      have ht : isSeg t = true := hBody.2 t htl
      refine ⟨segs ++ [t], by simp, ?_, ?_⟩
      · intro s hs
        rcases List.mem_append.mp hs with hs | hs
        · exact hBody.1 s hs
        · rw [List.mem_singleton.mp hs]
          exact ht
      · rw [hq, htl]
        show '/' :: '/' :: bodyStr segs (some t) = mkSourceFile (segs ++ [t])
        unfold mkSourceFile
        rw [← segsJoin_concat_seg]
        rfl
  · exfalso
    have heq : upDirs j ++ bodyStr segs tl = '/' :: '/' :: f.drop 2 :=
      hq.symm.trans hsplit
    cases j with
    | zero =>
      rw [upDirs_zero, List.nil_append] at heq
      rcases bodyStr_head segs tl hBody with hB0 | ⟨c, rest, hBc, hcs⟩
      · rw [hB0] at heq
        exact List.noConfusion heq
      · rw [hBc] at heq
        have hc : c = '/' := (List.cons_eq_cons.mp heq).1
        rw [hc] at hcs
        exact absurd hcs (by decide)
    | succ n =>
      rw [upDirs_succ] at heq
      simp only [List.cons_append] at heq
      have hc : ('.' : Char) = '/' := (List.cons_eq_cons.mp heq).1
      exact absurd hc (by decide)
  · exfalso
    have heq : upDirs j ++ ['.', '.'] = '/' :: '/' :: f.drop 2 :=
      hq.symm.trans hsplit
    cases j with
    | zero =>
      rw [upDirs_zero, List.nil_append] at heq
      have hc : ('.' : Char) = '/' := (List.cons_eq_cons.mp heq).1
      exact absurd hc (by decide)
    | succ n =>
      rw [upDirs_succ] at heq
      simp only [List.cons_append] at heq
      have hc : ('.' : Char) = '/' := (List.cons_eq_cons.mp heq).1
      exact absurd hc (by decide)

theorem NF_source_dir (d : List Char) (hNF : NF d)
    (hda : d.take 2 = ['/', '/']) (hdd : d.getLast? = some '/') :
    ∃ dsegs, (∀ s ∈ dsegs, isSeg s = true) ∧ d = mkSourceDir dsegs := by
  have hsplit : d = '/' :: '/' :: d.drop 2 := by
    conv_lhs => rw [← List.take_append_drop 2 d]
    rw [hda]
    rfl
  rcases hNF with ⟨segs, tl, hBody, hq⟩ | ⟨segs, tl, hBody, hq⟩ |
    ⟨j, segs, tl, hBody, hq⟩ | ⟨j, hq⟩
  · exfalso
    have heq : ('/' : Char) :: bodyStr segs tl = '/' :: '/' :: d.drop 2 :=
      hq.symm.trans hsplit
    have hB : bodyStr segs tl = '/' :: d.drop 2 :=
      (List.cons_eq_cons.mp heq).2
    rcases bodyStr_head segs tl hBody with hB0 | ⟨c, rest, hBc, hcs⟩
    · rw [hB0] at hB
      exact List.noConfusion hB
    · rw [hBc] at hB
      have hc : c = '/' := (List.cons_eq_cons.mp hB).1
      rw [hc] at hcs
      exact absurd hcs (by decide)
  · cases htl : tl with
    | some t =>
      exfalso
      have ht : isSeg t = true := hBody.2 t htl
      obtain ⟨htne, htns, _, _⟩ := (isSeg_iff t).mp ht
      rw [hq, htl] at hdd
      have hb : bodyStr segs (some t) = segsJoin segs ++ t := rfl
      rw [hb] at hdd
      rcases List.eq_nil_or_concat t with rfl | ⟨t2, c, hct⟩
      · exact htne rfl
      · simp only [List.concat_eq_append] at hct
        rw [hct] at hdd htns
        rw [show ('/' :: '/' :: (segsJoin segs ++ (t2 ++ [c]))) =
            ('/' :: '/' :: (segsJoin segs ++ t2)) ++ [c] by simp] at hdd
        rw [List.getLast?_concat] at hdd
        have hc : c = '/' := Option.some.inj hdd
        have hcm : isSlash c = false := htns c (by simp)
        rw [hc] at hcm
        exact absurd hcm (by decide)
    | none =>
      refine ⟨segs, hBody.1, ?_⟩
      rw [hq, htl]
      show '/' :: '/' :: bodyStr segs none = mkSourceDir segs
      unfold mkSourceDir
      simp [bodyStr]
  · exfalso
    have heq : upDirs j ++ bodyStr segs tl = '/' :: '/' :: d.drop 2 :=
      hq.symm.trans hsplit
    cases j with
    | zero =>
      rw [upDirs_zero, List.nil_append] at heq
      rcases bodyStr_head segs tl hBody with hB0 | ⟨c, rest, hBc, hcs⟩
      · rw [hB0] at heq
        exact List.noConfusion heq
      · rw [hBc] at heq
        have hc : c = '/' := (List.cons_eq_cons.mp heq).1
        rw [hc] at hcs
        exact absurd hcs (by decide)
    | succ n =>
      rw [upDirs_succ] at heq
      simp only [List.cons_append] at heq
      have hc : ('.' : Char) = '/' := (List.cons_eq_cons.mp heq).1
      exact absurd hc (by decide)
  · exfalso
    have heq : upDirs j ++ ['.', '.'] = '/' :: '/' :: d.drop 2 :=
      hq.symm.trans hsplit
    cases j with
    | zero =>
      rw [upDirs_zero, List.nil_append] at heq
      have hc : ('.' : Char) = '/' := (List.cons_eq_cons.mp heq).1
      exact absurd hc (by decide)
    | succ n =>
      rw [upDirs_succ] at heq
      simp only [List.cons_append] at heq
      have hc : ('.' : Char) = '/' := (List.cons_eq_cons.mp heq).1
      exact absurd hc (by decide)

/-! ## The claims -/

/-- C1: `GetDeps` followed by `ClassifyDependency` assigns every dependency
drawn from `deps` and `inherited_libraries`, deduplicated, plus every
datadep, to exactly one of the three buckets, and follows the rules: a
source-set dep of a source-set target is non-linkable; a source-set dep of
any other target has its compilable sources expanded into extra object
files on the link line; any other dep is linkable iff the current target is
an executable or shared library and the dep is linkable; every datadep is
non-linkable regardless of its kind. -/
theorem c1_dependency_classification
    (objf : Nat → List Char → SourceFileType → List Char)
    (env : Nat → GnTarget) (t : GnTarget) :
    (∀ current dep : GnTarget,
      (classification current dep = DepClass.linkable ∧
        classification current dep ≠ DepClass.nonLinkable ∧
        classification current dep ≠ DepClass.sourceSetExpanded) ∨
      (classification current dep ≠ DepClass.linkable ∧
        classification current dep = DepClass.nonLinkable ∧
        classification current dep ≠ DepClass.sourceSetExpanded) ∨
      (classification current dep ≠ DepClass.linkable ∧
        classification current dep ≠ DepClass.nonLinkable ∧
        classification current dep = DepClass.sourceSetExpanded)) ∧
    (∀ current dep : GnTarget, dep.output_type = OutputType.sourceSet →
      current.output_type = OutputType.sourceSet →
      classification current dep = DepClass.nonLinkable) ∧
    (∀ current dep : GnTarget, dep.output_type = OutputType.sourceSet →
      current.output_type ≠ OutputType.sourceSet →
      classification current dep = DepClass.sourceSetExpanded) ∧
    (∀ current dep : GnTarget, dep.output_type ≠ OutputType.sourceSet →
      (classification current dep = DepClass.linkable ↔
        ((current.output_type = OutputType.executable ∨
          current.output_type = OutputType.sharedLibrary) ∧
          isLinkable dep = true))) ∧
    (getDeps objf env t).linkable_deps =
      (processedDeps t).filter
        (fun d => classification t (env d) = DepClass.linkable) ∧
    (getDeps objf env t).non_linkable_deps =
      (processedDeps t).filter
        (fun d => classification t (env d) = DepClass.nonLinkable) ++
        t.datadeps ∧
    (∀ x : List Char, x ∈ (getDeps objf env t).extra_object_files ↔
      ∃ d ∈ processedDeps t,
        classification t (env d) = DepClass.sourceSetExpanded ∧
        ∃ src ∈ (env d).sources,
          (getSourceFileType src (env d).os ≠ SourceFileType.sourceUnknown ∧
            getSourceFileType src (env d).os ≠ SourceFileType.sourceH) ∧
          x = objf d src (getSourceFileType src (env d).os)) := by
  refine ⟨?_, ?_, ?_, ?_, ?_, ?_, ?_⟩
  · intro current dep
    cases hcl : classification current dep with
    | linkable => exact Or.inl ⟨rfl, by decide, by decide⟩
    | nonLinkable => exact Or.inr (Or.inl ⟨by decide, rfl, by decide⟩)
    | sourceSetExpanded => exact Or.inr (Or.inr ⟨by decide, by decide, rfl⟩)
  · intro current dep hdep hcur
    unfold classification
    rw [if_pos hdep, if_pos hcur]
  · intro current dep hdep hcur
    unfold classification
    rw [if_pos hdep, if_neg hcur]
  · intro current dep hdep
    unfold classification
    rw [if_neg hdep]
    by_cases h3 : (current.output_type = OutputType.executable ∨
        current.output_type = OutputType.sharedLibrary : Bool) ∧
        isLinkable dep = true
    · rw [if_pos h3]
      constructor
      · intro _
        refine ⟨?_, h3.2⟩
        have h4 := h3.1
        simpa using h4
      · intro _
        rfl
    · rw [if_neg h3]
      constructor
      · intro hcon
        simp at hcon
      · intro hr
        exfalso
        apply h3
        refine ⟨?_, hr.2⟩
        simpa using hr.1
  · rw [getDeps_spec objf env t]
  · rw [getDeps_spec objf env t]
  · intro x
    exact getDeps_extra_mem objf env t x

/-- C2 (counterexample to the claim as stated): the round trip fails on
non-normalized source-absolute paths under either reading of "yields f".
For the source-absolute but non-normalized file `//a/../b` against `//x/`,
resolving the rebase result and normalizing yields `//b`, not the file;
and for the normalized file `//x/f` against the non-normalized directory
`//x/../`, it yields `//f`, which differs even from the file's own
normalization `//x/f`. -/
theorem c2_roundtrip_counterexample :
    (normalizePath (("//x/").data ++
      rebaseSourceAbsolutePath (("//a/../b").data) (("//x/").data)) =
      ("//b").data ∧
    (("//b").data : List Char) ≠ ("//a/../b").data) ∧
    (normalizePath (("//x/../").data ++
      rebaseSourceAbsolutePath (("//x/f").data) (("//x/../").data)) =
      ("//f").data ∧
    normalizePath (("//x/f").data) = ("//x/f").data ∧
    (("//f").data : List Char) ≠ ("//x/f").data) := by
  refine ⟨⟨?_, by decide⟩, ?_, by decide, by decide⟩
  · have h : rebaseSourceAbsolutePath (("//a/../b").data) (("//x/").data) =
        ("../a/../b").data := by
      simp [rebaseSourceAbsolutePath, rebaseScan]
      decide
    rw [h]
    decide
  · have h : rebaseSourceAbsolutePath (("//x/f").data) (("//x/../").data) =
        ("../f").data := by
      simp [rebaseSourceAbsolutePath, rebaseScan]
      decide
    rw [h]
    decide

/-- C2 (amended): for every normalized source-absolute directory `d` (a
fixed point of `NormalizePath` that starts with `//` and ends with `/`) and
every normalized source-absolute file `f` (a fixed point that starts with
`//` and does not end with `/`), resolving the result of
`RebaseSourceAbsolutePath(f, d)` against `d` and then normalizing with
`NormalizePath` yields `f` again. -/
theorem c2_rebase_roundtrip (f d : List Char)
    (hfn : normalizePath f = f) (hdn : normalizePath d = d)
    (hfa : f.take 2 = ['/', '/']) (hda : d.take 2 = ['/', '/'])
    (hff : f.getLast? ≠ some '/') (hdd : d.getLast? = some '/') :
    normalizePath (d ++ rebaseSourceAbsolutePath f d) = f := by
  obtain ⟨fsegs, hfne, hfs, rfl⟩ :=
    NF_source_file f (hfn ▸ normalizePath_NF f) hfa hff
  obtain ⟨dsegs, hds, rfl⟩ :=
    NF_source_dir d (hdn ▸ normalizePath_NF d) hda hdd
  exact rebase_roundtrip fsegs dsegs hfne hfs hds

/-- C2 witness: the round trip at `f = //foo/bar.cc`, `d = //out/Debug/`,
with the normality and shape hypotheses evaluated concretely. -/
theorem c2_rebase_roundtrip_witness :
    normalizePath (("//out/Debug/").data ++
      rebaseSourceAbsolutePath (("//foo/bar.cc").data)
        (("//out/Debug/").data)) = ("//foo/bar.cc").data :=
  c2_rebase_roundtrip (("//foo/bar.cc").data) (("//out/Debug/").data)
    (by decide) (by decide) (by decide) (by decide) (by decide) (by decide)

/-- C3: `InvertDir` of a source-absolute directory with k internal segments
is `"../"` repeated k times, `InvertDir` of the empty path is empty,
normalizing the concatenation of a directory with its inversion yields
exactly `//`, and `InvertDir("//out/Debug/")` is `"../../"`. -/
theorem c3_invert_dir :
    (∀ dsegs : List (List Char), (∀ s ∈ dsegs, isSeg s = true) →
      invertDir (mkSourceDir dsegs) = upDirs dsegs.length ∧
      normalizePath (mkSourceDir dsegs ++ invertDir (mkSourceDir dsegs)) =
        ['/', '/']) ∧
    invertDir [] = [] ∧
    invertDir (("//out/Debug/").data) = ("../../").data := by
  refine ⟨?_, rfl, by decide⟩
  intro dsegs h
  refine ⟨invertDir_mkSourceDir dsegs h, ?_⟩
  rw [invertDir_mkSourceDir dsegs h]
  exact normalize_dir_invert dsegs h

/-- C4: `NormalizePath` is idempotent: normalizing an already-normalized
path leaves it unchanged. -/
theorem c4_normalize_idempotent (p : String) :
    normalizePathStr (normalizePathStr p) = normalizePathStr p :=
  congrArg String.mk (normalizePath_idem p.data)

/-- C5 (counterexample to the claim as stated): the S6 equation
`normalize("a/b/../../..") == "../"` is wrong: the code produces `..`
without a trailing slash, because the source had none. -/
theorem c5_s6_counterexample :
    normalizePathStr ("a/b/../../..") = ".." ∧
    (".." : String) ≠ "../" := by
  constructor
  · decide
  · decide

/-- C5 (amended): the corrected S6 equations and the `..` rules: in a
relative path collapsed to empty, `..` is preserved and becomes a new root
so that further `..` accumulate; in an absolute path `..` at the root is
dropped; a trailing `/` after `..` is preserved iff the source had one. -/
theorem c5_normalize_examples :
    normalizePathStr ("//a/b/../../c") = "//c" ∧
    normalizePathStr ("a/b/../../..") = ".." ∧
    normalizePathStr ("/a/../../b") = "/b" ∧
    normalizePathStr ("a/../../..") = "../.." ∧
    normalizePathStr ("a/b/../../../") = "../" ∧
    normalizePathStr ("/..") = "/" ∧
    normalizePathStr ("/../") = "/" ∧
    normalizePathStr ("//..") = "//" ∧
    normalizePathStr ("..") = ".." ∧
    normalizePathStr ("../") = "../" := by
  refine ⟨?_, ?_, ?_, ?_, ?_, ?_, ?_, ?_, ?_, ?_⟩ <;> decide

/-- C6 (counterexample to the claim as stated): `/foobar` does not lie
beneath the root `/foo`, yet `MakeAbsolutePathRelativeIfPossible` succeeds
on it (the code performs a raw string-prefix check, not a directory-tree
check). -/
theorem c6_beneath_counterexample :
    makeAbsolutePathRelativeIfPossible (("/foo").data) (("/foobar").data) =
      some (("//bar").data) ∧
    liesBeneath (("/foo").data) (("/foobar").data) = false := by
  constructor
  · decide
  · decide

/-- C6 (amended): `MakeAbsolutePathRelativeIfPossible` succeeds iff the
source root is a character-level prefix of the candidate path (so in
particular it succeeds on every path beneath the root), and every result is
a source-relative path beginning with `//`. -/
theorem c6_make_absolute_relative (source_root path : List Char) :
    ((makeAbsolutePathRelativeIfPossible source_root path).isSome = true ↔
      path.take source_root.length = source_root) ∧
    (liesBeneath source_root path = true →
      (makeAbsolutePathRelativeIfPossible source_root path).isSome = true) ∧
    (∀ dest, makeAbsolutePathRelativeIfPossible source_root path =
        some dest →
      dest = '/' :: '/' ::
        (path.drop source_root.length).dropWhile (fun c => isSlash c)) := by
  have hiff : (makeAbsolutePathRelativeIfPossible source_root path).isSome =
      true ↔ path.take source_root.length = source_root := by
    unfold makeAbsolutePathRelativeIfPossible
    by_cases h1 : source_root.length > path.length
    · rw [if_pos h1]
      simp only [Option.isSome_none, Bool.false_eq_true, false_iff]
      intro h2
      have h3 := congrArg List.length h2
      simp only [List.length_take] at h3
      omega
    · rw [if_neg h1]
      by_cases h2 : path.take source_root.length = source_root
      · rw [if_pos h2]
        simp [h2]
      · rw [if_neg h2]
        simp [h2]
  refine ⟨hiff, ?_, ?_⟩
  · intro hb
    rw [hiff]
    simp only [liesBeneath, Bool.decide_or, Bool.or_eq_true,
      decide_eq_true_eq] at hb
    rcases hb with rfl | hb
    · exact List.take_length path
    · have h3 : path.take source_root.length =
          (path.take (source_root.length + 1)).take source_root.length := by
        rw [List.take_take]
        congr 1
        omega
      rw [h3, ← hb]
      simp
  · intro dest hdest
    unfold makeAbsolutePathRelativeIfPossible at hdest
    by_cases h1 : source_root.length > path.length
    · rw [if_pos h1] at hdest
      exact absurd hdest (by simp)
    · rw [if_neg h1] at hdest
      by_cases h2 : path.take source_root.length = source_root
      · rw [if_pos h2] at hdest
        exact (Option.some.inj hdest).symm
      · rw [if_neg h2] at hdest
        exact absurd hdest (by simp)

/-- C7: with an empty output_extension the emitted extension follows the
platform table: macOS gives empty, `dylib`, `a`; Windows gives `exe`,
`dll.lib`, `lib`; Linux gives empty, `so`, `a` for executable, shared
library, static library respectively. -/
theorem c7_extension_table :
    getExtensionForOutputType OutputType.executable TargetOS.mac = [] ∧
    getExtensionForOutputType OutputType.sharedLibrary TargetOS.mac =
      ("dylib").data ∧
    getExtensionForOutputType OutputType.staticLibrary TargetOS.mac =
      ("a").data ∧
    getExtensionForOutputType OutputType.executable TargetOS.win =
      ("exe").data ∧
    getExtensionForOutputType OutputType.sharedLibrary TargetOS.win =
      ("dll.lib").data ∧
    getExtensionForOutputType OutputType.staticLibrary TargetOS.win =
      ("lib").data ∧
    getExtensionForOutputType OutputType.executable TargetOS.linux = [] ∧
    getExtensionForOutputType OutputType.sharedLibrary TargetOS.linux =
      ("so").data ∧
    getExtensionForOutputType OutputType.staticLibrary TargetOS.linux =
      ("a").data := by
  refine ⟨?_, ?_, ?_, ?_, ?_, ?_, ?_, ?_, ?_⟩ <;> decide

/-- C8: for a source-set target the classification produces no extra object
files (the assertion in `WriteSourceSetStamp` never fires), and the stamp
build line lists exactly the target's own object files followed by the
non-linkable implicit dependencies. -/
theorem c8_source_set_stamp
    (objf : Nat → List Char → SourceFileType → List Char)
    (outTF : Nat → List Char) (env : Nat → GnTarget) (t : GnTarget)
    (object_files : List (List Char))
    (h : t.output_type = OutputType.sourceSet) :
    (getDeps objf env t).extra_object_files = [] ∧
    writeSourceSetStamp objf outTF env t object_files =
      object_files ++ writeImplicitDependencies outTF t
        ((processedDeps t).filter
          (fun d => classification t (env d) = DepClass.nonLinkable) ++
          t.datadeps) := by
  refine ⟨getDeps_extra_ss objf env t h, ?_⟩
  unfold writeSourceSetStamp
  dsimp only
  rw [getDeps_spec objf env t]

/-- C8 witness: the source-set stamp property evaluated on a concrete
source-set target depending on a static library and another source set. -/
theorem c8_source_set_stamp_witness :
    (getDeps sampleObjf sampleEnv sampleSS2).extra_object_files = [] ∧
    writeSourceSetStamp sampleObjf sampleOutTF sampleEnv sampleSS2
        [['x', '.', 'o']] =
      [['x', '.', 'o']] ++ writeImplicitDependencies sampleOutTF sampleSS2
        ((processedDeps sampleSS2).filter
          (fun d =>
            classification sampleSS2 (sampleEnv d) = DepClass.nonLinkable) ++
          sampleSS2.datadeps) :=
  c8_source_set_stamp sampleObjf sampleOutTF sampleEnv sampleSS2
    [['x', '.', 'o']] (by decide)

/-- C9: `GenerateTarget` sets an error located at the function call and
defines no item whenever the argument list is not exactly one string or the
output kind is unknown; whenever it finishes without error the target is
handed to `ItemDefined` exactly once. -/
theorem c9_generate_target (functionCall : Nat) (args : List GnValue)
    (output_type : List Char) (runGen : OutputType → Option GnErr) :
    (((∀ s, args ≠ [GnValue.string s]) ∨
        knownOutputKind output_type = none) →
      (∃ e, (generateTarget functionCall args output_type runGen).err =
          some e ∧ e.location = functionCall) ∧
      (generateTarget functionCall args output_type runGen).itemDefined =
        0) ∧
    ((generateTarget functionCall args output_type runGen).err = none →
      (generateTarget functionCall args output_type runGen).itemDefined =
        1) := by
  by_cases hgood : ∃ s, args = [GnValue.string s]
  · obtain ⟨s, rfl⟩ := hgood
    constructor
    · intro hbad
      rcases hbad with hb | hk
      · exact absurd rfl (hb s)
      · have hred : generateTarget functionCall [GnValue.string s]
            output_type runGen =
            GenResult.mk
              (some (GnErr.mk functionCall ("Not a known output type"))) 0 := by
          unfold generateTarget
          rw [hk]
        rw [hred]
        exact ⟨⟨_, rfl, rfl⟩, rfl⟩
    · intro hnone
      cases hkind : knownOutputKind output_type with
      | none =>
        have hred : generateTarget functionCall [GnValue.string s]
            output_type runGen =
            GenResult.mk
              (some (GnErr.mk functionCall ("Not a known output type"))) 0 := by
          unfold generateTarget
          rw [hkind]
        rw [hred] at hnone
        simp at hnone
      | some kind =>
        cases hr : runGen kind with
        | some e =>
          have hred : generateTarget functionCall [GnValue.string s]
              output_type runGen = GenResult.mk (some e) 0 := by
            unfold generateTarget
            rw [hkind]
            dsimp only
            rw [hr]
          rw [hred] at hnone
          simp at hnone
        | none =>
          have hred : generateTarget functionCall [GnValue.string s]
              output_type runGen = GenResult.mk none 1 := by
            unfold generateTarget
            rw [hkind]
            dsimp only
            rw [hr]
          rw [hred]
  · have hb : ∀ s, args ≠ [GnValue.string s] := fun s hcon => hgood ⟨s, hcon⟩
    have herr : generateTarget functionCall args output_type runGen =
        GenResult.mk
          (some (GnErr.mk functionCall
            ("Target generator requires one string argument."))) 0 := by
      cases args with
      | nil => rfl
      | cons v rest =>
        cases v with
        | string s =>
          cases rest with
          | nil => exact absurd rfl (hb s)
          | cons w rest2 => rfl
        | integer n => rfl
        | boolean b => rfl
        | list n => rfl
    constructor
    · intro _
      rw [herr]
      exact ⟨⟨_, rfl, rfl⟩, rfl⟩
    · intro hnone
      rw [herr] at hnone
      simp at hnone

/-- C10: `NormalizePath` never produces a result longer than its input: the
in-place rewrite's destination index never passes the source index, so the
normalized length is at most the input length. -/
theorem c10_normalize_no_growth (p : String) :
    (normalizePathStr p).length ≤ p.length :=
  normalizePath_length_le p.data
